import Mathlib

/-!
# Shallow embedding of the `rdbms.py` storage-and-execution engine

This file translates the core engine of the repository (file `rdbms.py`:
classes `Column`, `Index`, `Table`, `Database`, `SQLParser`, `RDBMS`) into
Lean definitions and proves properties of the translation.

Modelling conventions:

* Python values flowing through the engine are `Value`:
  `None` ↦ `Value.null`, `int` ↦ `Value.int`, `float` ↦ `Value.float`
  (an exact rational; CPython compares ints and floats exactly, and the decimal
  literals the parser produces are rationals), `str` ↦ `Value.str`,
  `bool` ↦ `Value.bool`.
* Python `==` between engine values is `pyEq` (numeric cross-type equality,
  including `bool` as `0`/`1`, exactly as in CPython); dict keys of an index
  are therefore matched with `pyEq`.
* Python dicts are association lists (`List (String × α)`) with first-match
  lookup; assignment `d[k] = v` is `dictSet` (replace in place, append if new),
  matching insertion-ordered dict semantics.
* A stored row (which in the source carries its identity under the dict key
  `'_row_id'`) is `SRow`: the identity is held in a separate field, and the
  remaining keys in `vals`.  We assume no user column is literally named
  `_row_id` (such a schema would corrupt the source engine as well).
* Exceptions are `Except String`: a `.error` is a raised Python exception, a
  returned error value is modelled exactly as the source returns it
  (e.g. `Table.insert` returns a `(success, error-message)` pair).
* Mutation is explicit state passing: every operation returns the new
  `Table`/`Database`.  Operations whose source mutates before raising return
  the partially mutated state together with the `.error`.
* `Table.columns` models both `self.columns` (a name-keyed dict) and
  `self.column_order`: for schemas without duplicate column names (the only
  ones for which the source is coherent) the two coincide with an ordered
  list; theorems that need it carry a `Nodup` hypothesis on column names.
* File I/O in `Database.save`/`Database.load` is replaced by the snapshot
  record the source serializes to JSON (`Table.to_dict`/`from_dict` are
  modelled verbatim); the success of the physical write is an external
  boolean `saveOk` whose value the source ignores.
-/

/-- A runtime value of the engine: Python `None`/`int`/`float`/`str`/`bool`. -/
inductive Value where
  | null
  | int (n : Int)
  | float (q : Rat)
  | str (s : String)
  | bool (b : Bool)
  deriving DecidableEq, Repr

/-- Numeric view of a value: Python treats `bool` as `0`/`1` and compares
`int`/`float` exactly. -/
def Value.toNum : Value → Option Rat
  | .int n => some (n : Rat)
  | .float q => some q
  | .bool b => some (if b then 1 else 0)
  | _ => none

/-- Python `==` on engine values. -/
def pyEq (a b : Value) : Bool :=
  match a.toNum, b.toNum with
  | some x, some y => x = y
  | _, _ =>
    match a, b with
    | .str s, .str t => s = t
    | .null, .null => true
    | _, _ => false

/-! ### Structural string helpers

Lean's own `String` traversal functions (`splitOn`, `trim`, `toUpper`, ...)
are defined by recursion on byte positions and do not reduce inside the
kernel; the embedding therefore uses structurally recursive character-list
equivalents so that concrete engine runs can be evaluated in proofs. -/

/-- Python `str` `<`: lexicographic comparison by code point. -/
def charsLt : List Char → List Char → Bool
  | [], [] => false
  | [], _ :: _ => true
  | _ :: _, [] => false
  | a :: as, b :: bs =>
    if a.toNat < b.toNat then true
    else if a = b then charsLt as bs else false

def sLt (a b : String) : Bool := charsLt a.toList b.toList

def upperChars (cs : List Char) : List Char := cs.map Char.toUpper

def lowerChars (cs : List Char) : List Char := cs.map Char.toLower

def sUpper (s : String) : String := String.mk (upperChars s.toList)

def sLower (s : String) : String := String.mk (lowerChars s.toList)

def trimChars (cs : List Char) : List Char :=
  ((cs.dropWhile Char.isWhitespace).reverse.dropWhile Char.isWhitespace).reverse

def sTrim (s : String) : String := String.mk (trimChars s.toList)

def rstripChars (p : Char → Bool) (cs : List Char) : List Char :=
  (cs.reverse.dropWhile p).reverse

/-- Case-sensitive prefix test. -/
def isPre : List Char → List Char → Bool
  | [], _ => true
  | _ :: _, [] => false
  | p :: ps, c :: cs => p = c && isPre ps cs

/-- Python `str.split(sep)`: non-overlapping occurrences, left to right (the
skip counter consumes the matched separator so the recursion stays
structural). -/
def splitGo (sep : List Char) : List Char → List Char → Nat → List (List Char)
  | [], cur, _ => [cur.reverse]
  | c :: rest, cur, 0 =>
    if isPre sep (c :: rest) then
      cur.reverse :: splitGo sep rest [] (sep.length - 1)
    else splitGo sep rest (c :: cur) 0
  | _ :: rest, cur, k + 1 => splitGo sep rest cur k

def splitOnChars (sep cs : List Char) : List (List Char) := splitGo sep cs [] 0

def sSplitOn (s sep : String) : List String :=
  (splitOnChars sep.toList s.toList).map String.mk

/-- Python `str.split()`: whitespace runs, empties dropped. -/
def wsSplitGo : List Char → List Char → List (List Char)
  | [], cur => if cur = [] then [] else [cur.reverse]
  | c :: rest, cur =>
    if c.isWhitespace then
      if cur = [] then wsSplitGo rest [] else cur.reverse :: wsSplitGo rest []
    else wsSplitGo rest (c :: cur)

def joinSpace : List String → String
  | [] => ""
  | [x] => x
  | x :: rest => x ++ " " ++ joinSpace rest

def idxOfStr (x : String) : List String → Option Nat
  | [] => none
  | y :: rest =>
    if y = x then some 0
    else match idxOfStr x rest with
         | some n => some (n + 1)
         | none => none

/-- Python ordered comparison (`<`) of engine values; `.error` is the
`TypeError` CPython raises on unorderable operand types. -/
def pyLt (a b : Value) : Except String Bool :=
  match a.toNum, b.toNum with
  | some x, some y => .ok (decide (x < y))
  | _, _ =>
    match a, b with
    | .str s, .str t => .ok (sLt s t)
    | _, _ => .error "TypeError: unorderable types"

def pyGt (a b : Value) : Except String Bool := pyLt b a

def pyLe (a b : Value) : Except String Bool :=
  match a.toNum, b.toNum with
  | some x, some y => .ok (decide (x ≤ y))
  | _, _ =>
    match a, b with
    | .str s, .str t => .ok (sLt s t || decide (s = t))
    | _, _ => .error "TypeError: unorderable types"

def pyGe (a b : Value) : Except String Bool := pyLe b a

/-- Python `int(s)` on a string: optional surrounding whitespace, optional
sign, decimal digits (digit-group underscores are not modelled). -/
def pyParseInt (s : String) : Option Int :=
  let cs := trimChars s.toList
  let (neg, ds) :=
    match cs with
    | '+' :: rest => (false, rest)
    | '-' :: rest => (true, rest)
    | rest => (false, rest)
  if ds ≠ [] ∧ ds.all Char.isDigit then
    let n := ds.foldl (fun acc c => acc * 10 + (c.toNat - '0'.toNat)) 0
    some (if neg then -(n : Int) else (n : Int))
  else none

/-- Python `float(s)` on a string restricted to finite decimal forms:
optional sign, digits with at most one point (at least one digit), optional
decimal exponent.  (`inf`/`nan` and exotic spellings are outside the fragment
the engine's own parser can produce.) -/
def pyParseFloat (s : String) : Option Rat :=
  let cs := trimChars s.toList
  let (neg, cs1) :=
    match cs with
    | '+' :: rest => (false, rest)
    | '-' :: rest => (true, rest)
    | rest => (false, rest)
  let (mant, expPart) := cs1.span (fun c => c ≠ 'e' ∧ c ≠ 'E')
  let exp? : Option Int :=
    match expPart with
    | [] => some 0
    | _ :: e =>
      match e with
      | '+' :: ds => if ds ≠ [] ∧ ds.all Char.isDigit then
          some ((ds.foldl (fun acc c => acc * 10 + (c.toNat - '0'.toNat)) 0 : Nat) : Int) else none
      | '-' :: ds => if ds ≠ [] ∧ ds.all Char.isDigit then
          some (-((ds.foldl (fun acc c => acc * 10 + (c.toNat - '0'.toNat)) 0 : Nat) : Int)) else none
      | ds => if ds ≠ [] ∧ ds.all Char.isDigit then
          some ((ds.foldl (fun acc c => acc * 10 + (c.toNat - '0'.toNat)) 0 : Nat) : Int) else none
  let (ip, rest) := mant.span Char.isDigit
  let frac? : Option (List Char) :=
    match rest with
    | [] => some []
    | '.' :: fs => if fs.all Char.isDigit then some fs else none
    | _ => none
  match exp?, frac? with
  | some e, some fs =>
    if ip = [] ∧ fs = [] then none
    else
      let digits := ip ++ fs
      let n : Nat := digits.foldl (fun acc c => acc * 10 + (c.toNat - '0'.toNat)) 0
      let base : Rat := (n : Rat) / ((10 : Rat) ^ fs.length)
      let scaled : Rat := if e ≥ 0 then base * (10 : Rat) ^ e.toNat else base / (10 : Rat) ^ (-e).toNat
      some (if neg then -scaled else scaled)
  | _, _ => none

/-- Python `str(value)` for engine values (float formatting is approximated;
the engine only applies it to VARCHAR conversions). -/
def pyStr : Value → String
  | .null => "None"
  | .int n => toString n
  | .float q => toString q
  | .str s => s
  | .bool b => if b then "True" else "False"

/-- Python `int(value)` on a validated engine value (`int()` truncates floats
toward zero). -/
def pyToInt : Value → Int
  | .int n => n
  | .bool b => if b then 1 else 0
  | .float q => Int.tdiv q.num (q.den : Int)
  | .str s => (pyParseInt s).getD 0
  | .null => 0

/-- Python `float(value)` on a validated engine value. -/
def pyToFloat : Value → Rat
  | .int n => (n : Rat)
  | .bool b => if b then 1 else 0
  | .float q => q
  | .str s => (pyParseFloat s).getD 0
  | .null => 0

/-! ## Column (`class Column`) -/

/-- `Column.__init__` fields.  `length` is an `Int` because the source parses
it with Python `int()` (a negative length is representable and, being truthy,
is enforced). -/
structure Column where
  name : String
  data_type : String
  length : Option Int := none
  primary_key : Bool := false
  unique : Bool := false
  nullable : Bool := true
  deriving DecidableEq, Repr

/-- `Column.validate`: `none` is success, `some msg` the returned error. -/
def Column.validate (c : Column) (v : Value) : Option String :=
  if v = .null then
    if ¬ c.nullable ∧ ¬ c.primary_key then
      some ("Column " ++ c.name ++ " cannot be NULL")
    else none
  else if c.data_type = "INT" then
    -- `isinstance(value, int)` is true for Python bools as well.
    match v with
    | .int _ => none
    | .bool _ => none
    | .float _ => none  -- `int(float)` succeeds (truncation)
    | .str s => if (pyParseInt s).isSome then none
                else some ("Invalid INT value for column " ++ c.name)
    | .null => none
  else if c.data_type = "FLOAT" then
    match v with
    | .int _ => none
    | .float _ => none
    | .bool _ => none
    | .str s => if (pyParseFloat s).isSome then none
                else some ("Invalid FLOAT value for column " ++ c.name)
    | .null => none
  else if c.data_type = "VARCHAR" then
    match c.length with
    | some L =>
      if L ≠ 0 ∧ ((pyStr v).length : Int) > L then
        some ("VARCHAR value too long for column " ++ c.name ++ " (max " ++ toString L ++ ")")
      else none
    | none => none
  else if c.data_type = "BOOLEAN" then
    match v with
    | .bool _ => none
    | _ =>
      if sLower (pyStr v) ∈ ["true", "false", "1", "0"] then none
      else some ("Invalid BOOLEAN value for column " ++ c.name)
  else none

/-- `Column.convert`. -/
def Column.convert (c : Column) (v : Value) : Value :=
  if v = .null then .null
  else if c.data_type = "INT" then .int (pyToInt v)
  else if c.data_type = "FLOAT" then .float (pyToFloat v)
  else if c.data_type = "VARCHAR" then .str (pyStr v)
  else if c.data_type = "BOOLEAN" then
    match v with
    | .bool b => .bool b
    | _ => .bool (sLower (pyStr v) ∈ ["true", "1"])
  else v

/-! ## Association-list dictionaries -/

/-- First-match lookup in an insertion-ordered dict. -/
def alookup {α : Type} (d : List (String × α)) (k : String) : Option α :=
  match d with
  | [] => none
  | (k1, v) :: rest => if k1 = k then some v else alookup rest k

/-- Python dict assignment `d[k] = v`: replace in place, append if absent. -/
def dictSet {α : Type} (d : List (String × α)) (k : String) (v : α) : List (String × α) :=
  match d with
  | [] => [(k, v)]
  | (k1, v1) :: rest => if k1 = k then (k1, v) :: rest else (k1, v1) :: dictSet rest k v

/-! ## Index (`class Index`) -/

/-- `Index.index`: a `defaultdict(list)` from value to row-id bucket; keys are
matched with Python `==` (`pyEq`). -/
abbrev Index := List (Value × List Nat)

/-- `Index.add`: append `rid` to the bucket of the first key equal to `v`, or
create a new bucket (keyed by `v` itself) at the end. -/
def Index.add (idx : Index) (v : Value) (rid : Nat) : Index :=
  match idx with
  | [] => [(v, [rid])]
  | (k, b) :: rest =>
    if pyEq k v then (k, b ++ [rid]) :: rest
    else (k, b) :: Index.add rest v rid

/-- `Index.remove`: if a bucket for `v` exists, remove one occurrence of
`rid` from it and drop the bucket if it becomes empty. -/
def Index.remove (idx : Index) (v : Value) (rid : Nat) : Index :=
  match idx with
  | [] => []
  | (k, b) :: rest =>
    if pyEq k v then
      let b1 := if rid ∈ b then b.erase rid else b
      if b1 = [] then rest else (k, b1) :: rest
    else (k, b) :: Index.remove rest v rid

/-- `Index.lookup`. -/
def Index.lookup (idx : Index) (v : Value) : List Nat :=
  match idx with
  | [] => []
  | (k, b) :: rest => if pyEq k v then b else Index.lookup rest v

/-! ## Rows and WHERE conditions -/

/-- A stored row: internal identity (`'_row_id'`) plus the column values in
insertion (= schema) order. -/
structure SRow where
  id : Nat
  vals : List (String × Value)
  deriving DecidableEq, Repr

def SRow.get (r : SRow) (k : String) : Option Value := alookup r.vals k

/-- A result row (internal identity stripped). -/
abbrev Row := List (String × Value)

/-- One parsed WHERE condition for a column: either a bare literal (an `=`
condition is stored as the plain value by `_parse_where`) or an
`(operator, literal)` pair. -/
inductive Cond where
  | eq (v : Value)
  | ne (v : Value)
  | gt (v : Value)
  | lt (v : Value)
  | ge (v : Value)
  | le (v : Value)
  deriving DecidableEq, Repr

/-- A WHERE clause: the `where` dict (column ↦ condition). -/
abbrev Where := List (String × Cond)

/-- One atomic condition against a row value.  This is the comparison
branch-ladder that `rdbms.py` repeats verbatim in `Table.select`,
`Table.update`, `Table.delete` and the `SELECT_JOIN` post-filter; it is
modelled once.  The ordered operators require both operands non-`NULL`
(short-circuit: the Python comparison — which may raise `TypeError` — is only
reached with both operands non-`None`). -/
def evalCond (rv : Value) : Cond → Except String Bool
  | .eq v => .ok (pyEq rv v)
  | .ne v => .ok (! pyEq rv v)
  | .gt v => if rv = .null ∨ v = .null then .ok false else pyGt rv v
  | .lt v => if rv = .null ∨ v = .null then .ok false else pyLt rv v
  | .ge v => if rv = .null ∨ v = .null then .ok false else pyGe rv v
  | .le v => if rv = .null ∨ v = .null then .ok false else pyLe rv v

/-- The per-row WHERE loop: conditions in dict order, first failing condition
rejects the row (`break`), a missing column rejects the row. -/
def matchConds (vals : List (String × Value)) : List (String × Cond) → Except String Bool
  | [] => .ok true
  | (col, cond) :: rest =>
    match alookup vals col with
    | none => .ok false
    | some rv => do
      let b ← evalCond rv cond
      if b then matchConds vals rest else .ok false

def matchWhere (vals : List (String × Value)) (w : Option Where) : Except String Bool :=
  match w with
  | none => .ok true
  | some conds => matchConds vals conds

/-! ## Table (`class Table`) -/

/-- `Table.__init__` state: `columns` models the name-keyed `self.columns`
dict together with `self.column_order` (coinciding for duplicate-free
schemas). -/
structure Table where
  name : String
  columns : List Column
  rows : List SRow
  next_row_id : Nat
  indexes : List (String × Index)
  deriving DecidableEq

def Table.colNames (t : Table) : List String := t.columns.map Column.name

/-- `Table.__init__`: empty row store, indexes pre-created for primary-key and
unique columns. -/
def Table.new (name : String) (columns : List Column) : Table :=
  { name := name
    columns := columns
    rows := []
    next_row_id := 0
    indexes := (columns.filter (fun c => c.primary_key || c.unique)).map
      (fun c => (c.name, ([] : Index))) }

def Table.findCol (t : Table) (cn : String) : Option Column :=
  t.columns.find? (fun c => c.name = cn)

/-- One column of `Table.insert`'s loop: auto-assign the identity counter to
an unsupplied primary key, validate, convert a non-`None` value, and reject a
duplicate non-NULL key value against the column's index; the result is the
value stored for the column. -/
def insertCol (t : Table) (values : List (String × Value)) (c : Column) :
    Except String Value :=
  let v0 := (alookup values c.name).getD .null
  let v1 := if c.primary_key ∧ v0 = .null then .int (t.next_row_id : Int) else v0
  match c.validate v1 with
  | some e => .error e
  | none =>
    let v2 := if v1 = .null then v1 else c.convert v1
    if (v2 ≠ .null : Bool) && (c.primary_key || c.unique) &&
        (match alookup t.indexes c.name with
         | some idx => (Index.lookup idx v2 ≠ [] : Bool)
         | none => false) then
      .error ("Duplicate value for " ++ c.name)
    else
      .ok v2

/-- The column loop of `Table.insert`: every column in schema order; the
accumulated row is only committed by `Table.insert` after every column
passes. -/
def insertLoop (t : Table) (values : List (String × Value)) :
    List Column → List (String × Value) → Except String (List (String × Value))
  | [], acc => .ok acc
  | c :: cs, acc =>
    match insertCol t values c with
    | .error e => .error e
    | .ok v2 => insertLoop t values cs (acc ++ [(c.name, v2)])

/-- `Table.insert`: on any validation/constraint failure nothing is touched
and `(self, False, error)` is returned; on success the row is appended,
every index updated, and the identity counter advanced. -/
def Table.insert (t : Table) (values : List (String × Value)) :
    Table × Bool × Option String :=
  match insertLoop t values t.columns [] with
  | .error e => (t, false, some e)
  | .ok rowvals =>
    let rid := t.next_row_id
    let idxs := t.indexes.map (fun p =>
      match alookup rowvals p.1 with
      | some v => (p.1, p.2.add v rid)
      | none => p)
    ({ t with rows := t.rows ++ [⟨rid, rowvals⟩],
              next_row_id := rid + 1,
              indexes := idxs }, true, none)

/-- The row filter shared by `Table.select` (and structurally identical in
`update`/`delete`): keep the rows matching the WHERE conjunction, raising the
first comparison `TypeError` encountered. -/
def filterRows (w : Option Where) : List SRow → Except String (List SRow)
  | [] => .ok []
  | r :: rs => do
    let m ← matchWhere r.vals w
    let rest ← filterRows w rs
    .ok (if m then r :: rest else rest)

/-- The projection comprehension of `Table.select`:
`{col: row.get(col) for col in columns if col in self.columns}` — unknown
names are silently dropped. -/
def projectSelectRow (colNames : List String) (cs : List String) (r : SRow) : Row :=
  cs.foldl (fun acc c =>
    if c ∈ colNames then dictSet acc c ((r.get c).getD .null) else acc) []

/-- `Table.select`. -/
def Table.select (t : Table) (cs : Option (List String)) (w : Option Where) :
    Except String (List Row) := do
  let filtered ← filterRows w t.rows
  match cs with
  | some cols => .ok (filtered.map (projectSelectRow t.colNames cols))
  | none => .ok (filtered.map SRow.vals)

/-- The per-row SET validation loop of `Table.update`: unknown column,
`Column.validate`, then — for a non-`None` new value on a unique/primary-key
indexed column — reject when the index maps the (unconverted) new value to
any row other than the row being updated. -/
def validateSet (cols : List Column) (idxs : List (String × Index)) (r : SRow) :
    List (String × Value) → Option String
  | [] => none
  | (cn, nv) :: rest =>
    match cols.find? (fun c => c.name = cn) with
    | none => some ("Unknown column " ++ cn)
    | some c =>
      match c.validate nv with
      | some e => some e
      | none =>
        if (nv ≠ .null : Bool) && (c.unique || c.primary_key) &&
            (match alookup idxs cn with
             | some idx =>
               (Index.lookup idx nv ≠ [] : Bool) &&
                 ! (Index.lookup idx nv).all (fun rid => rid = r.id)
             | none => false) then
          some ("Duplicate value for " ++ cn)
        else validateSet cols idxs r rest

/-- The index-maintenance prologue of a committed row update: remove the old
value of every touched indexed column. -/
def removeOlds (sv : List (String × Value)) (r : SRow) (idxs : List (String × Index)) :
    List (String × Index) :=
  sv.foldl (fun acc p =>
    match alookup acc p.1 with
    | some idx => dictSet acc p.1 (idx.remove ((r.get p.1).getD .null) r.id)
    | none => acc) idxs

/-- Writing the SET values into the row (non-`None` values converted). -/
def writeSet (cols : List Column) (sv : List (String × Value)) (r : SRow) : SRow :=
  ⟨r.id, sv.foldl (fun acc p =>
    let nv := if p.2 = .null then p.2
              else match cols.find? (fun c => c.name = p.1) with
                   | some c => c.convert p.2
                   | none => p.2
    dictSet acc p.1 nv) r.vals⟩

/-- Re-adding the new values of every touched indexed column. -/
def addNews (sv : List (String × Value)) (r : SRow) (idxs : List (String × Index)) :
    List (String × Index) :=
  sv.foldl (fun acc p =>
    match alookup acc p.1 with
    | some idx => dictSet acc p.1 (idx.add ((r.get p.1).getD .null) r.id)
    | none => acc) idxs

/-- The row loop of `Table.update`.  Result: the rebuilt row store, the final
indexes, and either `.error` (a raised `TypeError`, state kept) or
`.ok (count, optional error)` — the source returns the literal pair
`(0, error)` when a later row fails validation, keeping the rows already
committed. -/
def updateRows (cols : List Column) (sv : List (String × Value)) (w : Option Where) :
    List SRow → List (String × Index) →
    List SRow × List (String × Index) × Except String (Nat × Option String)
  | [], idxs => ([], idxs, .ok (0, none))
  | r :: rest, idxs =>
    match matchWhere r.vals w with
    | .error e => (r :: rest, idxs, .error e)
    | .ok false =>
      let (rs, i2, res) := updateRows cols sv w rest idxs
      (r :: rs, i2, res)
    | .ok true =>
      match validateSet cols idxs r sv with
      | some err => (r :: rest, idxs, .ok (0, some err))
      | none =>
        let i1 := removeOlds sv r idxs
        let r1 := writeSet cols sv r
        let i2 := addNews sv r1 i1
        let (rs, i3, res) := updateRows cols sv w rest i2
        (r1 :: rs, i3,
          match res with
          | .ok (n, none) => .ok (n + 1, none)
          | other => other)

/-- `Table.update`: always returns the (possibly partially) mutated table. -/
def Table.update (t : Table) (sv : List (String × Value)) (w : Option Where) :
    Table × Except String (Nat × Option String) :=
  let (rs, idxs, res) := updateRows t.columns sv w t.rows t.indexes
  ({ t with rows := rs, indexes := idxs }, res)

/-- The deletion pass of `Table.delete` over rows paired with their match
flag.  The source first collects the matching positions and then deletes them
in descending order; removals of distinct rows commute, so this is modelled
as one forward pass with the same result. -/
def deleteGo : List (SRow × Bool) → List (String × Index) →
    List SRow × List (String × Index) × Nat
  | [], idxs => ([], idxs, 0)
  | (r, false) :: rest, idxs =>
    let (rs, i2, n) := deleteGo rest idxs
    (r :: rs, i2, n)
  | (r, true) :: rest, idxs =>
    let i1 := idxs.map (fun p =>
      match alookup r.vals p.1 with
      | some v => (p.1, p.2.remove v r.id)
      | none => p)
    let (rs, i2, n) := deleteGo rest i1
    (rs, i2, n + 1)

/-- Match flags for `Table.delete`'s collect phase (exceptions abort before
any mutation, as in the source). -/
def deleteFlags (w : Option Where) : List SRow → Except String (List (SRow × Bool))
  | [] => .ok []
  | r :: rs => do
    let m ← matchWhere r.vals w
    let rest ← deleteFlags w rs
    .ok ((r, m) :: rest)

/-- `Table.delete`. -/
def Table.delete (t : Table) (w : Option Where) : Except String (Table × Nat) := do
  let flagged ← deleteFlags w t.rows
  let (rs, idxs, n) := deleteGo flagged t.indexes
  .ok ({ t with rows := rs, indexes := idxs }, n)

/-- `Table.create_index`: no-op (reporting success) when already indexed,
failure on an unknown column, otherwise replay every existing row. -/
def Table.create_index (t : Table) (cn : String) : Table × Bool :=
  if cn ∉ t.colNames then (t, false)
  else if (alookup t.indexes cn).isSome then (t, true)
  else
    let idx := t.rows.foldl (fun (idx : Index) r => Index.add idx ((r.get cn).getD .null) r.id)
      ([] : Index)
    ({ t with indexes := t.indexes ++ [(cn, idx)] }, true)

/-! ## Snapshot records (`Table.to_dict`/`from_dict`, `Database.save`/`load`)

The JSON file is modelled by the record the source serializes; the engine
round-trips through it with `load(save(db))`. -/

structure TableDict where
  name : String
  columns : List Column
  rows : List (List (String × Value))
  next_row_id : Nat
  indexed_columns : List String
  deriving DecidableEq

def Table.to_dict (t : Table) : TableDict :=
  { name := t.name
    columns := t.columns
    rows := t.rows.map SRow.vals
    next_row_id := t.next_row_id
    indexed_columns := t.indexes.map Prod.fst }

/-- `Table.from_dict`: rebuild the table, restore the saved identity counter,
re-insert every saved row (the success flag of each insert is ignored by the
source), then re-create any saved index not already present. -/
def Table.from_dict (d : TableDict) : Table :=
  let t0 := Table.new d.name d.columns
  let t1 := { t0 with next_row_id := d.next_row_id }
  let t2 := d.rows.foldl (fun t rv => (t.insert rv).1) t1
  d.indexed_columns.foldl (fun t cn =>
    if (alookup t.indexes cn).isSome then t else (t.create_index cn).1) t2

/-! ## Database (`class Database`) -/

structure Database where
  name : String
  tables : List (String × Table)
  deriving DecidableEq

def Database.get_table (db : Database) (n : String) : Option Table :=
  alookup db.tables n

def Database.create_table (db : Database) (n : String) (cols : List Column) :
    Database × Bool × Option String :=
  if (alookup db.tables n).isSome then
    (db, false, some ("Table " ++ n ++ " already exists"))
  else
    ({ db with tables := db.tables ++ [(n, Table.new n cols)] }, true, none)

def Database.drop_table (db : Database) (n : String) : Database × Bool :=
  if (alookup db.tables n).isSome then
    ({ db with tables := db.tables.filter (fun p => p.1 ≠ n) }, true)
  else (db, false)

def Database.list_tables (db : Database) : List String := db.tables.map Prod.fst

/-- `tables[name] = t` (the name is always already present when the executor
writes back a mutated table). -/
def Database.setTable (db : Database) (n : String) (t : Table) : Database :=
  { db with tables := dictSet db.tables n t }

/-- Merging one matching row pair in `Database.join`: colliding column names
are qualified with their source table name; the right side never overwrites a
key already present. -/
def mergeRows (ltn rtn : String) (lr rr : SRow) : Row :=
  let c1 : Row := lr.vals.foldl (fun acc p =>
    let key := if (alookup rr.vals p.1).isSome then ltn ++ "." ++ p.1 else p.1
    dictSet acc key p.2) []
  rr.vals.foldl (fun acc p =>
    let key := if (alookup lr.vals p.1).isSome then rtn ++ "." ++ p.1 else p.1
    if (alookup acc key).isSome then acc else dictSet acc key p.2) c1

/-- The zero-match row of a LEFT join: the left row's columns unqualified,
then `None` for each right-table column name **not already present**. -/
def padLeftRow (lr : SRow) (rt : Table) : Row :=
  let c : Row := lr.vals.foldl (fun acc p => dictSet acc p.1 p.2) []
  rt.columns.foldl (fun acc col =>
    if (alookup acc col.name).isSome then acc else acc ++ [(col.name, Value.null)]) c

/-- The matching merged rows one left row produces (left-val non-`None` and
`==`-equal to the right value), in right-row order. -/
def innerMatches (ltn rtn lc rc : String) (rrows : List SRow) (lr : SRow) : List Row :=
  rrows.filterMap (fun rr =>
    let lv := (lr.get lc).getD .null
    let rv := (rr.get rc).getD .null
    if pyEq lv rv ∧ lv ≠ .null then some (mergeRows ltn rtn lr rr) else none)

/-- `Database.join`: nested-loop INNER / LEFT equality join; an unknown table
or join type yields `[]`. -/
def Database.join (db : Database) (ltn rtn lc rc jt : String) : List Row :=
  match db.get_table ltn, db.get_table rtn with
  | some lt, some rt =>
    if sUpper jt = "INNER" then
      lt.rows.flatMap (innerMatches ltn rtn lc rc rt.rows)
    else if sUpper jt = "LEFT" then
      lt.rows.flatMap (fun lr =>
        let ms := innerMatches ltn rtn lc rc rt.rows lr
        if ms.isEmpty then [padLeftRow lr rt] else ms)
    else []
  | _, _ => []

structure DbDict where
  name : String
  tables : List (String × TableDict)
  deriving DecidableEq

/-- The snapshot record `Database.save` writes (JSON encoding elided). -/
def Database.toDict (db : Database) : DbDict :=
  { name := db.name, tables := db.tables.map (fun p => (p.1, p.2.to_dict)) }

/-- `Database.load` applied to a previously saved snapshot: a fresh table
registry rebuilt with `Table.from_dict`. -/
def Database.loadDict (d : DbDict) : Database :=
  { name := d.name, tables := d.tables.map (fun p => (p.1, Table.from_dict p.2)) }

/-! ## Parsed commands (`SQLParser.parse` results) -/

inductive Cmd where
  | createTable (table : String) (cols : List Column)
  | dropTable (table : String)
  | createIndex (table col : String)
  | insert (table : String) (cols : List String) (vals : List Value)
  | selectJoin (cols : Option (List String)) (ltn rtn lc rc jt : String) (w : Option Where)
  | select (table : String) (cols : Option (List String)) (w : Option Where)
  | update (table : String) (sv : List (String × Value)) (w : Option Where)
  | delete (table : String) (w : Option Where)
  | showTables
  | describe (table : String)
  deriving DecidableEq

/-! ## Statement parsing (`class SQLParser`)

The source matches ten regular expressions in priority order against the
whitespace-normalized statement.  After normalization every whitespace run is
a single blank, so `\s+` is one blank and `\s*` at most one; the lazy groups
(`.*?`, `.+?`) and the optional anchored `WHERE` groups are realized by
trying split positions earliest-first, which is exactly the backtracking
order of the Python `re` engine on these patterns. -/

/-- Python `str.split()` (split on whitespace runs, no empties). -/
def pySplitWs (s : String) : List String :=
  (wsSplitGo s.toList []).map String.mk

/-- `' '.join(sql.split())` followed by `.strip().rstrip(';')`.  (Note
`rstrip(';')` removes only semicolons, so a blank before a trailing `;`
survives, as in the source.) -/
def pyNormalize (s : String) : String :=
  String.mk (rstripChars (fun c => c = ';') (joinSpace (pySplitWs s)).toList)

/-- `\w` (ASCII word characters; the engine's own grammar produces no
others). -/
def wordChar (c : Char) : Bool := c.isAlphanum || c = '_'

/-- Consume a literal pattern case-insensitively. -/
def eatCI : List Char → List Char → Option (List Char)
  | [], cs => some cs
  | _ :: _, [] => none
  | p :: ps, c :: cs => if c.toUpper = p.toUpper then eatCI ps cs else none

def eatStrCI (pat : String) (cs : List Char) : Option (List Char) := eatCI pat.toList cs

/-- `\w+` (greedy). -/
def takeWord (cs : List Char) : List Char × List Char := cs.span wordChar

/-- `\s*` after normalization: at most one blank. -/
def skipSpaceOpt : List Char → List Char
  | ' ' :: cs => cs
  | cs => cs

/-- All splits of the input at case-insensitive occurrences of `sep`,
earliest occurrence first (the backtracking order of a lazy group). -/
def splitsCIAux (sep : List Char) (acc : List Char) : List Char → List (List Char × List Char)
  | [] => []
  | c :: cs =>
    let here := match eatCI sep (c :: cs) with
      | some tail => [(acc, tail)]
      | none => []
    here ++ splitsCIAux sep (acc ++ [c]) cs

def splitsCI (sep : String) (cs : List Char) : List (List Char × List Char) :=
  splitsCIAux sep.toList [] cs

/-- The shared literal grammar of `_parse_values` / `_parse_where` /
`_parse_set`: quoted string, `NULL`/`TRUE`/`FALSE`, float when a point is
present, else int, else the raw token. -/
def parseLiteral (s : String) : Value :=
  let cs := s.toList
  if (cs.head? = some '\'' ∧ cs.getLast? = some '\'') ∨
      (cs.head? = some '"' ∧ cs.getLast? = some '"') then
    .str (String.mk (cs.drop 1).dropLast)
  else if upperChars cs = "NULL".toList then .null
  else if upperChars cs = "TRUE".toList then .bool true
  else if upperChars cs = "FALSE".toList then .bool false
  else if cs.contains '.' then
    match pyParseFloat s with
    | some q => .float q
    | none => .str s
  else
    match pyParseInt s with
    | some n => .int n
    | none => .str s

/-- `_parse_values`. -/
def parseValuesClause (s : String) : List Value :=
  (sSplitOn s ",").map (fun p => parseLiteral (sTrim p))

def condOf (op : String) (v : Value) : Cond :=
  if op = "=" then .eq v
  else if op = "!=" then .ne v
  else if op = ">" then .gt v
  else if op = ">=" then .ge v
  else if op = "<" then .lt v
  else .le v

/-- One condition of `_parse_where`:
`re.match(r'(\w+)\s*(>=|<=|!=|>|<|=)\s*(.+)', condition)`; a non-matching
condition is silently skipped. -/
def parseCondStr (s : String) : Option (String × Cond) :=
  let cs := trimChars s.toList
  let (w, r1) := takeWord cs
  if w = [] then none else
  let r2 := skipSpaceOpt r1
  let (opStr, r3) :=
    if r2.take 2 = ['>', '='] then (">=", r2.drop 2)
    else if r2.take 2 = ['<', '='] then ("<=", r2.drop 2)
    else if r2.take 2 = ['!', '='] then ("!=", r2.drop 2)
    else if r2.take 1 = ['>'] then (">", r2.drop 1)
    else if r2.take 1 = ['<'] then ("<", r2.drop 1)
    else if r2.take 1 = ['='] then ("=", r2.drop 1)
    else ("", r2)
  if opStr = "" then none else
  let r4 := skipSpaceOpt r3
  if r4 = [] then none else
  some (String.mk w, condOf opStr (parseLiteral (sTrim (String.mk r4))))

/-- `_parse_where`: split on the literal (case-sensitive) `' AND '`, build
the condition dict. -/
def parseWhereClause (cs : List Char) : Where :=
  ((sSplitOn (String.mk cs) " AND ").filterMap parseCondStr).foldl
    (fun acc p => dictSet acc p.1 p.2) []

/-- One `col = literal` pair of `_parse_set`. -/
def parseSetPair (s : String) : Option (String × Value) :=
  let cs := trimChars s.toList
  let (w, r1) := takeWord cs
  if w = [] then none else
  let r2 := skipSpaceOpt r1
  match r2 with
  | '=' :: r3 =>
    let r4 := skipSpaceOpt r3
    if r4 = [] then none
    else some (String.mk w, parseLiteral (sTrim (String.mk r4)))
  | _ => none

/-- `_parse_set`. -/
def parseSetClause (cs : List Char) : List (String × Value) :=
  (((sSplitOn (String.mk cs) ",").map sTrim).filterMap parseSetPair).foldl
    (fun acc p => dictSet acc p.1 p.2) []

/-- One column definition of `_parse_columns`.  The `int()` applied to a
VARCHAR length is unguarded in the source: a non-numeric length raises
`ValueError` out of `SQLParser.parse` (modelled as `.error`). -/
def parseColDefs : List String → Except String (List Column)
  | [] => .ok []
  | part :: rest => do
    let tokens := pySplitWs part
    match tokens with
    | t0 :: t1 :: _ =>
      let colTypeRaw := sUpper t1
      let typeLen : Except String (String × Option Int) :=
        if colTypeRaw.toList.contains '(' then
          match sSplitOn colTypeRaw "(" with
          | [a, b] =>
            let ls := String.mk (rstripChars (fun c => c = ')') b.toList)
            match pyParseInt ls with
            | some n => .ok (a, some n)
            | none => .error ("ValueError: invalid literal for int() with base 10: " ++ ls)
          | _ => .error "ValueError: too many values to unpack"
        else .ok (colTypeRaw, none)
      match typeLen with
      | .error e => .error e
      | .ok (colType, len) =>
        let ups := tokens.map sUpper
        let primary := decide ("PRIMARY" ∈ ups)
        let uniq := decide ("UNIQUE" ∈ ups)
        let nullable :=
          match idxOfStr "NOT" ups with
          | some i => ! decide (ups.getD (i + 1) "" = "NULL")
          | none => true
        let cols ← parseColDefs rest
        .ok (⟨t0, colType, len, primary, uniq, nullable⟩ :: cols)
    | _ => parseColDefs rest

/-- `_parse_columns`. -/
def parseColumnsDef (s : String) : Except String (List Column) :=
  parseColDefs ((sSplitOn s ",").map sTrim)

/-- `CREATE\s+TABLE\s+(\w+)\s*\((.*)\)` — the greedy group reaches the last
`)`; trailing text is ignored (`re.match` is prefix matching). -/
def tryCreateTable (cs : List Char) : Except String (Option Cmd) :=
  match eatStrCI "CREATE TABLE " cs with
  | none => .ok none
  | some r1 =>
    let (w, r2) := takeWord r1
    if w = [] then .ok none else
    match skipSpaceOpt r2 with
    | '(' :: body =>
      match body.reverse.dropWhile (fun c => c ≠ ')') with
      | [] => .ok none
      | _ :: tl =>
        match parseColumnsDef (String.mk tl.reverse) with
        | .error e => .error e
        | .ok cols => .ok (some (.createTable (String.mk w) cols))
    | _ => .ok none

def tryDropTable (cs : List Char) : Option Cmd :=
  match eatStrCI "DROP TABLE " cs with
  | none => none
  | some r =>
    let (w, _) := takeWord r
    if w = [] then none else some (.dropTable (String.mk w))

/-- `CREATE\s+INDEX\s+\w+\s+ON\s+(\w+)\s*\((\w+)\)` — the index name is
parsed but discarded. -/
def tryCreateIndex (cs : List Char) : Option Cmd :=
  match eatStrCI "CREATE INDEX " cs with
  | none => none
  | some r1 =>
    let (w1, r2) := takeWord r1
    if w1 = [] then none else
    match eatStrCI " ON " r2 with
    | none => none
    | some r3 =>
      let (tn, r4) := takeWord r3
      if tn = [] then none else
      match skipSpaceOpt r4 with
      | '(' :: r5 =>
        let (cn, r6) := takeWord r5
        if cn = [] then none else
        match r6 with
        | ')' :: _ => some (.createIndex (String.mk tn) (String.mk cn))
        | _ => none
      | _ => none

/-- `INSERT\s+INTO\s+(\w+)\s*\((.*?)\)\s*VALUES\s*\((.*?)\)` — both groups
are lazy (first closing paren wins, the first one subject to being followed
by `VALUES (`). -/
def tryInsert (cs : List Char) : Option Cmd :=
  match eatStrCI "INSERT INTO " cs with
  | none => none
  | some r1 =>
    let (tn, r2) := takeWord r1
    if tn = [] then none else
    match skipSpaceOpt r2 with
    | '(' :: body =>
      (splitsCI ")" body).findSome? (fun p =>
        let r3 := skipSpaceOpt p.2
        match eatStrCI "VALUES" r3 with
        | none => none
        | some r4 =>
          match skipSpaceOpt r4 with
          | '(' :: vbody =>
            match splitsCI ")" vbody with
            | [] => none
            | (vcontent, _) :: _ =>
              some (.insert (String.mk tn)
                ((sSplitOn (String.mk p.1) ",").map sTrim)
                (parseValuesClause (String.mk vcontent)))
          | _ => none)
    | _ => none

def mkColsOpt (colsPart : List Char) : Option (List String) :=
  let s := String.mk colsPart
  if s = "*" then none else some ((sSplitOn s ",").map sTrim)

/-- The optional `(?:\s+WHERE\s+(.+))?` suffix of the JOIN pattern (not
anchored: if the suffix does not match it is simply skipped). -/
def joinWhereOpt (r : List Char) : Option Where :=
  match eatStrCI " WHERE " r with
  | some rest => if rest = [] then none else some (parseWhereClause rest)
  | none => none

/-- The tail of the SELECT-JOIN pattern after ` FROM `:
`(\w+)\s+(INNER|LEFT)\s+JOIN\s+(\w+)\s+ON\s+(\w+)\.(\w+)\s*=\s*(\w+)\.(\w+)`.
Note the source keeps only the column parts of the two qualified names
(groups 6 and 8); the qualifiers are ignored. -/
def parseJoinTail (cols : Option (List String)) (tail : List Char) : Option Cmd :=
  let (lt, r1) := takeWord tail
  if lt = [] then none else
  let jt? : Option (String × List Char) :=
    match eatStrCI " INNER JOIN " r1 with
    | some r => some ("INNER", r)
    | none =>
      match eatStrCI " LEFT JOIN " r1 with
      | some r => some ("LEFT", r)
      | none => none
  match jt? with
  | none => none
  | some (jt, r2) =>
    let (rt, r3) := takeWord r2
    if rt = [] then none else
    match eatStrCI " ON " r3 with
    | none => none
    | some r4 =>
      let (_, r5) := takeWord r4
      match r5 with
      | '.' :: r6 =>
        let (c1, r7) := takeWord r6
        if c1 = [] then none else
        let r8 := skipSpaceOpt r7
        match r8 with
        | '=' :: r9 =>
          let r10 := skipSpaceOpt r9
          let (_, r11) := takeWord r10
          match r11 with
          | '.' :: r12 =>
            let (c2, r13) := takeWord r12
            if c2 = [] then none else
            some (.selectJoin cols (String.mk lt) (String.mk rt)
              (String.mk c1) (String.mk c2) jt (joinWhereOpt r13))
          | _ => none
        | _ => none
      | _ => none

def trySelectJoin (cs : List Char) : Option Cmd :=
  match eatStrCI "SELECT " cs with
  | none => none
  | some r1 =>
    (splitsCI " FROM " r1).findSome? (fun p =>
      if p.1 = [] then none else parseJoinTail (mkColsOpt p.1) p.2)

/-- The tail of the plain SELECT pattern after ` FROM `:
`(\w+)(?:\s+WHERE\s+(.+))?$` (anchored — trailing garbage rejects). -/
def parseSelectTail (tail : List Char) : Option (String × Option Where) :=
  let (tn, r) := takeWord tail
  if tn = [] then none else
  match r with
  | [] => some (String.mk tn, none)
  | _ =>
    match eatStrCI " WHERE " r with
    | some rest =>
      if rest = [] then none
      else some (String.mk tn, some (parseWhereClause rest))
    | none => none

def trySelect (cs : List Char) : Option Cmd :=
  match eatStrCI "SELECT " cs with
  | none => none
  | some r1 =>
    (splitsCI " FROM " r1).findSome? (fun p =>
      if p.1 = [] then none else
      match parseSelectTail p.2 with
      | some (tn, w) => some (.select tn (mkColsOpt p.1) w)
      | none => none)

/-- `UPDATE\s+(\w+)\s+SET\s+(.+?)(?:\s+WHERE\s+(.+))?$`. -/
def tryUpdate (cs : List Char) : Option Cmd :=
  match eatStrCI "UPDATE " cs with
  | none => none
  | some r1 =>
    let (tn, r2) := takeWord r1
    if tn = [] then none else
    match eatStrCI " SET " r2 with
    | none => none
    | some r3 =>
      if r3 = [] then none else
      match (splitsCI " WHERE " r3).find? (fun p => p.1 ≠ [] ∧ p.2 ≠ []) with
      | some p =>
        some (.update (String.mk tn) (parseSetClause p.1) (some (parseWhereClause p.2)))
      | none => some (.update (String.mk tn) (parseSetClause r3) none)

/-- `DELETE\s+FROM\s+(\w+)(?:\s+WHERE\s+(.+))?$`. -/
def tryDelete (cs : List Char) : Option Cmd :=
  match eatStrCI "DELETE FROM " cs with
  | none => none
  | some r1 =>
    match parseSelectTail r1 with
    | some (tn, w) => some (.delete tn w)
    | none => none

def tryShow (cs : List Char) : Option Cmd :=
  match eatStrCI "SHOW TABLES" cs with
  | some _ => some .showTables
  | none => none

def tryDescribe (cs : List Char) : Option Cmd :=
  match eatStrCI "DESCRIBE " cs with
  | none => none
  | some r =>
    let (w, _) := takeWord r
    if w = [] then none else some (.describe (String.mk w))

/-- `SQLParser.parse`: the ten patterns in source priority order; `.ok none`
is the `return None` parse failure, `.error` an uncaught exception raised
while parsing (possible only in the CREATE TABLE column definitions). -/
def SQLParser.parse (sql : String) : Except String (Option Cmd) :=
  let cs := (pyNormalize sql).toList
  match tryCreateTable cs with
  | .error e => .error e
  | .ok (some c) => .ok (some c)
  | .ok none =>
    .ok (tryDropTable cs <|> tryCreateIndex cs <|> tryInsert cs <|> trySelectJoin cs <|>
         trySelect cs <|> tryUpdate cs <|> tryDelete cs <|> tryShow cs <|> tryDescribe cs)

/-! ## Executor (`class RDBMS`) -/

/-- A successful result payload. -/
inductive Payload where
  | msg (s : String)
  | rows (rs : List Row)
  | names (ns : List String)
  | schema (xs : List (String × String × String × String))
  deriving DecidableEq

/-- The outcome of dispatching one parsed command: the (possibly mutated)
database, the result of the snapshot write if one was attempted (`Database.save`
returns a success flag that every call site ignores), and either the returned
`(success, payload)` pair or a raised exception. -/
structure DOut where
  db : Database
  saveResult : Option Bool
  r : Except String (Bool × Payload)

/-- The WHERE post-filter the source reimplements inline for `SELECT_JOIN`
results (the same branch ladder as `evalCond`). -/
def filterJoinRows (w : Where) : List Row → Except String (List Row)
  | [] => .ok []
  | r :: rs => do
    let m ← matchConds r w
    let rest ← filterJoinRows w rs
    .ok (if m then r :: rest else rest)

/-- The `SELECT_JOIN` projection comprehension
`{col: row.get(col) for col in parsed['columns']}`: every requested name
becomes a key, `None` when absent from the merged row. -/
def projectJoinRow (cs : List String) (r : Row) : Row :=
  cs.foldl (fun acc c => dictSet acc c ((alookup r c).getD .null)) []

/-- `dict(zip(columns, values))` of the INSERT dispatch. -/
def zipDict (cols : List String) (vals : List Value) : List (String × Value) :=
  (List.zip cols vals).foldl (fun acc p => dictSet acc p.1 p.2) []

/-- The DESCRIBE schema rows: (Column, Type, Nullable, Key). -/
def describeRows (t : Table) : List (String × String × String × String) :=
  t.columns.map (fun c =>
    (c.name,
     c.data_type ++ (match c.length with
                     | some L => if L ≠ 0 then "(" ++ toString L ++ ")" else ""
                     | none => ""),
     if c.nullable then "YES" else "NO",
     if c.primary_key then "PRI" else if c.unique then "UNI" else ""))

/-- The per-command dispatch of `RDBMS.execute` (the body of its
`try:` block).  `saveOk` is the success of the physical snapshot write; its
value is recorded but — exactly as in the source, which ignores
`Database.save`'s return value — influences nothing else. -/
def dispatch (db : Database) (saveOk : Bool) : Cmd → DOut
  | .createTable tn cols =>
    match db.create_table tn cols with
    | (db1, true, _) =>
      ⟨db1, some saveOk, .ok (true, .msg ("Table " ++ tn ++ " created successfully"))⟩
    | (db1, false, e) => ⟨db1, none, .ok (false, .msg (e.getD ""))⟩
  | .dropTable tn =>
    match db.drop_table tn with
    | (db1, true) =>
      ⟨db1, some saveOk, .ok (true, .msg ("Table " ++ tn ++ " dropped successfully"))⟩
    | (_, false) => ⟨db, none, .ok (false, .msg ("Table " ++ tn ++ " does not exist"))⟩
  | .createIndex tn cn =>
    match db.get_table tn with
    | none => ⟨db, none, .ok (false, .msg ("Table " ++ tn ++ " does not exist"))⟩
    | some t =>
      match t.create_index cn with
      | (t1, true) =>
        ⟨db.setTable tn t1, some saveOk,
         .ok (true, .msg ("Index created on " ++ tn ++ "." ++ cn))⟩
      | (_, false) => ⟨db, none, .ok (false, .msg "Failed to create index")⟩
  | .insert tn cols vals =>
    match db.get_table tn with
    | none => ⟨db, none, .ok (false, .msg ("Table " ++ tn ++ " does not exist"))⟩
    | some t =>
      match t.insert (zipDict cols vals) with
      | (t1, true, _) => ⟨db.setTable tn t1, some saveOk, .ok (true, .msg "1 row inserted")⟩
      | (_, false, e) => ⟨db, none, .ok (false, .msg (e.getD ""))⟩
  | .select tn cs w =>
    match db.get_table tn with
    | none => ⟨db, none, .ok (false, .msg ("Table " ++ tn ++ " does not exist"))⟩
    | some t =>
      match t.select cs w with
      | .error e => ⟨db, none, .error e⟩
      | .ok rs => ⟨db, none, .ok (true, .rows rs)⟩
  | .selectJoin cs ltn rtn lc rc jt w =>
    let rows := db.join ltn rtn lc rc jt
    let filtered := match w with
      | some conds => filterJoinRows conds rows
      | none => .ok rows
    match filtered with
    | .error e => ⟨db, none, .error e⟩
    | .ok rs =>
      let rs1 := match cs with
        | some cols => rs.map (projectJoinRow cols)
        | none => rs
      ⟨db, none, .ok (true, .rows rs1)⟩
  | .update tn sv w =>
    match db.get_table tn with
    | none => ⟨db, none, .ok (false, .msg ("Table " ++ tn ++ " does not exist"))⟩
    | some t =>
      match t.update sv w with
      | (t1, .error e) => ⟨db.setTable tn t1, none, .error e⟩
      | (t1, .ok (_, some e)) => ⟨db.setTable tn t1, none, .ok (false, .msg e)⟩
      | (t1, .ok (n, none)) =>
        ⟨db.setTable tn t1, some saveOk, .ok (true, .msg (toString n ++ " row(s) updated"))⟩
  | .delete tn w =>
    match db.get_table tn with
    | none => ⟨db, none, .ok (false, .msg ("Table " ++ tn ++ " does not exist"))⟩
    | some t =>
      match t.delete w with
      | .error e => ⟨db, none, .error e⟩
      | .ok (t1, n) =>
        ⟨db.setTable tn t1, some saveOk, .ok (true, .msg (toString n ++ " row(s) deleted"))⟩
  | .showTables => ⟨db, none, .ok (true, .names db.list_tables)⟩
  | .describe tn =>
    match db.get_table tn with
    | none => ⟨db, none, .ok (false, .msg ("Table " ++ tn ++ " does not exist"))⟩
    | some t => ⟨db, none, .ok (true, .schema (describeRows t))⟩

/-- `RDBMS.execute`: parse — **outside** any exception handler — then
dispatch inside `try/except`, converting any raised exception into
`(False, "Error executing command: …")`.  A top-level `.error` is an
exception `execute` itself raises to its caller. -/
def RDBMS.execute (db : Database) (saveOk : Bool) (sql : String) :
    Except String (Database × Option Bool × Bool × Payload) :=
  match SQLParser.parse sql with
  | .error e => .error e
  | .ok none => .ok (db, none, false, .msg "Failed to parse SQL command")
  | .ok (some cmd) =>
    let o := dispatch db saveOk cmd
    match o.r with
    | .ok (b, p) => .ok (o.db, o.saveResult, b, p)
    | .error e => .ok (o.db, o.saveResult, false, .msg ("Error executing command: " ++ e))

/-! ## Basic lemmas about values and dictionaries -/

theorem pyEq_refl (v : Value) : pyEq v v = true := by
  cases v <;> simp [pyEq, Value.toNum]

theorem pyEq_symm {a b : Value} (h : pyEq a b = true) : pyEq b a = true := by
  cases a <;> cases b <;> simp_all [pyEq, Value.toNum]

theorem pyEq_trans {a b c : Value} (h1 : pyEq a b = true) (h2 : pyEq b c = true) :
    pyEq a c = true := by
  cases a <;> cases b <;> cases c <;> simp_all [pyEq, Value.toNum]

theorem pyEq_null_right {v : Value} : pyEq v .null = true ↔ v = .null := by
  cases v <;> simp [pyEq, Value.toNum]

theorem pyEq_null_left {v : Value} : pyEq .null v = true ↔ v = .null := by
  cases v <;> simp [pyEq, Value.toNum]

theorem alookup_dictSet {α : Type} (d : List (String × α)) (k c : String) (v : α) :
    alookup (dictSet d k v) c = if k = c then some v else alookup d c := by
  induction d with
  | nil => simp [dictSet, alookup]
  | cons p rest ih =>
    by_cases h1 : p.1 = k
    · subst h1
      by_cases h2 : p.1 = c <;> simp [dictSet, alookup, h2]
    · by_cases h2 : p.1 = c
      · subst h2
        have : ¬ k = p.1 := fun h => h1 h.symm
        simp [dictSet, alookup, h1, this]
      · simp [dictSet, alookup, h1, h2, ih]

theorem dictSet_keys_of_mem {α : Type} (d : List (String × α)) (k : String) (v : α)
    (h : k ∈ d.map Prod.fst) : (dictSet d k v).map Prod.fst = d.map Prod.fst := by
  induction d with
  | nil => simp at h
  | cons p rest ih =>
    by_cases h1 : p.1 = k
    · simp [dictSet, h1]
    · have h2 : k ∈ rest.map Prod.fst := by
        rcases List.mem_cons.mp h with h | h
        · exact absurd h.symm h1
        · exact h
      simp [dictSet, h1, ih h2]

theorem alookup_mem {α : Type} {d : List (String × α)} {k : String} {v : α}
    (h : alookup d k = some v) : (k, v) ∈ d := by
  induction d with
  | nil => simp [alookup] at h
  | cons p rest ih =>
    rcases p with ⟨a, b⟩
    by_cases h1 : a = k
    · subst h1
      simp [alookup] at h
      subst h
      exact List.mem_cons_self _ _
    · simp [alookup, h1] at h
      exact List.mem_cons_of_mem _ (ih h)

theorem alookup_isSome_of_mem_keys {α : Type} {d : List (String × α)} {k : String}
    (h : k ∈ d.map Prod.fst) : (alookup d k).isSome := by
  induction d with
  | nil => simp at h
  | cons p rest ih =>
    by_cases h1 : p.1 = k
    · simp [alookup, h1]
    · have h2 : k ∈ rest.map Prod.fst := by
        rcases List.mem_cons.mp h with h | h
        · exact absurd h.symm h1
        · exact h
      simp [alookup, h1]
      exact ih h2

theorem alookup_none_of_not_mem_keys {α : Type} {d : List (String × α)} {k : String}
    (h : k ∉ d.map Prod.fst) : alookup d k = none := by
  induction d with
  | nil => rfl
  | cons p rest ih =>
    have h1 : ¬ p.1 = k := fun hh => h (by simp [hh])
    have h2 : k ∉ rest.map Prod.fst := fun hh => h (by simp [hh])
    simp [alookup, h1]
    exact ih h2

/-! ## C5 — NULL semantics of WHERE comparisons -/

/-- C5: for an atomic WHERE condition with operator `>`, `<`, `>=` or `<=`,
a `NULL` row value or literal makes the condition false (and the row is not
matched); with both operands non-`NULL` the condition is exactly the Python
ordered comparison; `=` tests `==`-equality and `!=` its negation. -/
theorem c5_null_ordering (rv v : Value) :
    ((rv = .null ∨ v = .null) →
      evalCond rv (.gt v) = .ok false ∧ evalCond rv (.lt v) = .ok false ∧
      evalCond rv (.ge v) = .ok false ∧ evalCond rv (.le v) = .ok false) ∧
    (rv ≠ .null → v ≠ .null →
      evalCond rv (.gt v) = pyGt rv v ∧ evalCond rv (.lt v) = pyLt rv v ∧
      evalCond rv (.ge v) = pyGe rv v ∧ evalCond rv (.le v) = pyLe rv v) ∧
    (evalCond rv (.eq v) = .ok (pyEq rv v)) ∧
    (evalCond rv (.ne v) = .ok (! pyEq rv v)) ∧
    (∀ (vals : List (String × Value)) (c : String) (cond : Cond) (rest : List (String × Cond)),
      alookup vals c = some rv → evalCond rv cond = .ok false →
      matchConds vals ((c, cond) :: rest) = .ok false) := by
  refine ⟨fun h => ?_, fun h1 h2 => ?_, rfl, rfl, fun vals c cond rest hl he => ?_⟩
  · simp [evalCond, h]
  · simp [evalCond, h1, h2]
  · simp only [matchConds, hl, he]
    rfl

/-- Witness for C5 at concrete values. -/
theorem c5_null_ordering_witness :
    evalCond (Value.int 3) (.gt Value.null) = .ok false ∧
    evalCond (Value.int 3) (.gt (Value.int 2)) = pyGt (Value.int 3) (Value.int 2) ∧
    matchConds [("a", Value.null)] [("a", Cond.le (Value.int 7))] = .ok false :=
  ⟨((c5_null_ordering (Value.int 3) Value.null).1 (Or.inr rfl)).1,
   ((c5_null_ordering (Value.int 3) (Value.int 2)).2.1 (by decide) (by decide)).1,
   (c5_null_ordering Value.null (Value.int 7)).2.2.2.2 [("a", Value.null)] "a"
     (Cond.le (Value.int 7)) [] rfl
     (((c5_null_ordering Value.null (Value.int 7)).1 (Or.inl rfl)).2.2.2)⟩

/-! ## C8 — `execute` can raise (uncaught `ValueError` in the parser) -/

/-- C8 (code bug): `RDBMS.execute` does **not** return a `(success, payload)`
pair for every input.  `SQLParser.parse` runs outside the `try`/`except` of
`execute`, and `_parse_columns` applies `int()` to a VARCHAR length without
guarding it, so `CREATE TABLE t (a VARCHAR(x))` raises `ValueError` out of
`execute` instead of producing `(False, message)`. -/
theorem c8_execute_raises (db : Database) (saveOk : Bool) :
    RDBMS.execute db saveOk "CREATE TABLE t (a VARCHAR(x))" =
      .error "ValueError: invalid literal for int() with base 10: X" := by
  rfl

/-! ## C1 — multi-row UPDATE: partial commit but count 0 -/

/-- A table `t(id INT PRIMARY KEY, u INT UNIQUE)` holding `(1, 10)` and
`(2, 20)`, built through the engine's own operations. -/
def tableC1 : Table :=
  ((Table.new "t"
      [⟨"id", "INT", none, true, false, true⟩,
       ⟨"u", "INT", none, false, true, true⟩]).insert
    [("id", .int 1), ("u", .int 10)]).1.insert [("id", .int 2), ("u", .int 20)] |>.1

/-- C1 counterexample: `UPDATE t SET u = 25 WHERE id > 0` visits both rows;
the first row commits (`u = 25` is visible in the final row store), the
second fails the unique check — but the returned pair is `(0, error)`,
**not** the partial count `1` with the error that the claim requires. -/
theorem c1_counterexample :
    (tableC1.update [("u", Value.int 25)] (some [("id", Cond.gt (Value.int 0))])).2 =
        .ok (0, some "Duplicate value for u") ∧
    ((tableC1.update [("u", Value.int 25)]
        (some [("id", Cond.gt (Value.int 0))])).1.rows.map SRow.vals) =
      [[("id", Value.int 1), ("u", Value.int 25)],
       [("id", Value.int 2), ("u", Value.int 20)]] ∧
    (0 : Nat) ≠ 1 :=
  ⟨rfl, rfl, by decide⟩

/-- C1 (amended): `Table.update` visits rows in order; a row that matches
and validates is committed (row store and indexes rewritten) before the next
row is visited, and a later failure leaves it committed; but on failure the
statement returns the literal pair `(0, first error)` — the count of rows
already committed is discarded (and `RDBMS.execute` then returns only
`(False, error)`). -/
theorem c1_amended_update (cols : List Column) (sv : List (String × Value))
    (w : Option Where) (r : SRow) (rest : List SRow) (idxs : List (String × Index))
    (hm : matchWhere r.vals w = .ok true)
    (hv : validateSet cols idxs r sv = none) :
    (updateRows cols sv w (r :: rest) idxs =
      (let i2 := addNews sv (writeSet cols sv r) (removeOlds sv r idxs)
       let rec1 := updateRows cols sv w rest i2
       (writeSet cols sv r :: rec1.1, rec1.2.1,
        match rec1.2.2 with
        | .ok (n, none) => .ok (n + 1, none)
        | other => other))) ∧
    (∀ (rows : List SRow) (idxs2 : List (String × Index)) (n : Nat) (e : String),
      (updateRows cols sv w rows idxs2).2.2 = .ok (n, some e) → n = 0) := by
  constructor
  · simp only [updateRows, hm, hv]
  · intro rows
    induction rows with
    | nil =>
      intro idxs2 n e h
      simp [updateRows] at h
    | cons r0 rest0 ih =>
      intro idxs2 n e h
      simp only [updateRows] at h
      rcases hm0 : matchWhere r0.vals w with e0 | b0
      · rw [hm0] at h
        simp at h
      · rw [hm0] at h
        cases b0 with
        | false =>
          simp only at h
          exact ih _ _ _ h
        | true =>
          simp only at h
          rcases hv0 : validateSet cols idxs2 r0 sv with _ | err
          · rw [hv0] at h
            simp only at h
            rcases h2 : (updateRows cols sv w rest0
                (addNews sv (writeSet cols sv r0) (removeOlds sv r0 idxs2))).2.2 with
              e1 | p1
            · rw [h2] at h
              simp at h
            · rw [h2] at h
              rcases p1 with ⟨n1, _ | e1⟩
              · simp at h
              · simp at h
                exact h.1 ▸ ih _ _ _ h2
          · rw [hv0] at h
            simp at h
            exact h.1.symm

/-- Witness for the amended C1 at the concrete two-row table. -/
theorem c1_amended_update_witness :
    matchWhere (tableC1.rows.getD 0 ⟨0, []⟩).vals (some [("id", Cond.gt (Value.int 0))]) =
        .ok true ∧
    validateSet tableC1.columns tableC1.indexes (tableC1.rows.getD 0 ⟨0, []⟩)
        [("u", Value.int 25)] = none ∧
    (∀ (rows : List SRow) (idxs2 : List (String × Index)) (n : Nat) (e : String),
      (updateRows tableC1.columns [("u", Value.int 25)]
          (some [("id", Cond.gt (Value.int 0))]) rows idxs2).2.2 = .ok (n, some e) →
      n = 0) :=
  ⟨rfl, rfl,
   (c1_amended_update tableC1.columns [("u", Value.int 25)]
      (some [("id", Cond.gt (Value.int 0))]) (tableC1.rows.getD 0 ⟨0, []⟩)
      (tableC1.rows.drop 1) tableC1.indexes rfl rfl).2⟩

/-! ## C3 — LEFT join padding under column-name collision -/

/-- Scenario 2 of the specification: `a(id INT PRIMARY KEY)` with rows 1, 2
and `b(id INT PRIMARY KEY, a_id INT)` with row `(10, 1)`; the column name
`id` collides between the two tables. -/
def dbC3 : Database :=
  { name := "mydb"
    tables :=
      [("a", ((Table.new "a" [⟨"id", "INT", none, true, false, true⟩]).insert
                [("id", .int 1)]).1.insert [("id", .int 2)] |>.1),
       ("b", (Table.new "b"
                [⟨"id", "INT", none, true, false, true⟩,
                 ⟨"a_id", "INT", none, false, false, true⟩]).insert
                [("id", .int 10), ("a_id", .int 1)] |>.1)] }

/-- C3 counterexample: in `SELECT * FROM a LEFT JOIN b ON a.id = b.a_id` the
zero-match left row `a(2)` is emitted as `{id: 2, a_id: NULL}` — the
right-table column `id` does **not** appear with a NULL value (neither under
its matched-row key `b.id` nor under the plain key `id`, which instead holds
the left row's value 2), contradicting "NULL for every right-table column …
in particular when a column name collides". -/
theorem c3_counterexample :
    dbC3.join "a" "b" "id" "a_id" "LEFT" =
      [[("a.id", Value.int 1), ("b.id", Value.int 10), ("a_id", Value.int 1)],
       [("id", Value.int 2), ("a_id", Value.null)]] ∧
    alookup [("id", Value.int 2), ("a_id", Value.null)] "b.id" = none ∧
    alookup [("id", Value.int 2), ("a_id", Value.null)] "id" = some (Value.int 2) ∧
    Value.int 2 ≠ Value.null :=
  ⟨rfl, rfl, rfl, by decide⟩

/-! ## C7 — snapshot round trip -/

/-- A reachable database state with a duplicated primary-key value: starting
from `t(id INT PRIMARY KEY)` with rows 1 and 2, the statement
`UPDATE t SET id = '2' WHERE id = 1` passes the unique check (the index is
keyed by the converted `int` 2, the check looks up the raw string `'2'`) and
commits, leaving two rows with `id = 2`. -/
def tableC7 : Table :=
  (((Table.new "t" [⟨"id", "INT", none, true, false, true⟩]).insert
      [("id", .int 1)]).1.insert [("id", .int 2)] |>.1.update
      [("id", .str "2")] (some [("id", Cond.eq (.int 1))])).1

def dbC7 : Database := { name := "mydb", tables := [("t", tableC7)] }

/-- C7 counterexample: saving `dbC7` and loading the snapshot into a fresh
database does not yield the same rows up to row order — `Table.from_dict`
re-inserts the saved rows through `Table.insert`, whose duplicate check
silently drops the second `id = 2` row, so one row of two survives. -/
theorem c7_counterexample :
    tableC7.rows.map SRow.vals = [[("id", Value.int 2)], [("id", Value.int 2)]] ∧
    (match (Database.loadDict (Database.toDict dbC7)).get_table "t" with
     | some t => t.rows.map SRow.vals
     | none => []) = [[("id", Value.int 2)]] ∧
    ([[("id", Value.int 2)], [("id", Value.int 2)]] : List (List (String × Value))).length ≠
      ([[("id", Value.int 2)]] : List (List (String × Value))).length :=
  ⟨rfl, rfl, by decide⟩

/-! ## C10 — JOIN projection vs plain SELECT projection -/

theorem alookup_foldl_dictSet (g : String → Value) (cs : List String) (acc : Row)
    (c : String) :
    alookup (cs.foldl (fun a x => dictSet a x (g x)) acc) c =
      if c ∈ cs then some (g c) else alookup acc c := by
  induction cs generalizing acc with
  | nil => simp
  | cons x rest ih =>
    simp only [List.foldl_cons, ih (dictSet acc x (g x)), alookup_dictSet]
    by_cases h1 : c ∈ rest
    · simp [h1]
    · by_cases h2 : x = c
      · subst h2
        simp [h1]
      · have h3 : ¬ c = x := fun hh => h2 hh.symm
        simp [h1, h2, h3]

theorem alookup_foldl_projNone (colNames : List String) (r : SRow) (c : String)
    (h : c ∉ colNames) (cs : List String) (acc : Row) (hacc : alookup acc c = none) :
    alookup (cs.foldl (fun a x =>
      if x ∈ colNames then dictSet a x ((r.get x).getD .null) else a) acc) c = none := by
  induction cs generalizing acc with
  | nil => simpa using hacc
  | cons x rest ih =>
    simp only [List.foldl_cons]
    by_cases hx : x ∈ colNames
    · simp only [hx, if_true]
      have hxc : ¬ x = c := fun hh => h (hh ▸ hx)
      refine ih _ ?_
      rw [alookup_dictSet]
      simp [hxc, hacc]
    · simp only [hx, if_false]
      exact ih _ hacc

theorem except_bind_ok {ε α β : Type} {x : Except ε α} {f : α → Except ε β} {b : β}
    (h : (x >>= f) = .ok b) : ∃ a, x = .ok a ∧ f a = .ok b := by
  cases x with
  | error e => simp [Bind.bind, Except.bind] at h
  | ok a =>
    refine ⟨a, rfl, ?_⟩
    simpa [Bind.bind, Except.bind] using h

/-- C10: the `SELECT_JOIN` projection keeps every requested column name as a
key of every result row — a name missing from the merged row becomes `NULL` —
whereas the single-table `SELECT` projection silently drops any requested
name that is not a column of the table. -/
theorem c10_join_projection :
    (∀ (cs : List String) (r : Row) (c : String), c ∈ cs →
      alookup (projectJoinRow cs r) c = some ((alookup r c).getD Value.null)) ∧
    (∀ (cs : List String) (r : Row) (c : String), c ∈ cs → alookup r c = none →
      alookup (projectJoinRow cs r) c = some Value.null) ∧
    (∀ (db : Database) (so : Bool) (cols : List String) (ltn rtn lc rc jt : String)
        (w : Option Where) (b : Bool) (rs : List Row),
      (dispatch db so (.selectJoin (some cols) ltn rtn lc rc jt w)).r =
          .ok (b, .rows rs) →
      ∀ row ∈ rs, ∃ m, row = projectJoinRow cols m) ∧
    (∀ (t : Table) (cs : List String) (w : Option Where) (rs : List Row),
      t.select (some cs) w = .ok rs →
      ∀ row ∈ rs, ∀ c, c ∉ t.colNames → alookup row c = none) := by
  refine ⟨?_, ?_, ?_, ?_⟩
  · intro cs r c hc
    unfold projectJoinRow
    rw [alookup_foldl_dictSet (fun x => (alookup r x).getD Value.null) cs [] c]
    simp [hc]
  · intro cs r c hc hnone
    unfold projectJoinRow
    rw [alookup_foldl_dictSet (fun x => (alookup r x).getD Value.null) cs [] c]
    simp [hc, hnone]
  · intro db so cols ltn rtn lc rc jt w b rs h row hrow
    simp only [dispatch] at h
    rcases hf : (match w with
      | some conds => filterJoinRows conds (db.join ltn rtn lc rc jt)
      | none => Except.ok (db.join ltn rtn lc rc jt)) with e | rs0
    · rw [hf] at h
      simp at h
    · rw [hf] at h
      simp at h
      obtain ⟨_, hrs⟩ := h
      subst hrs
      obtain ⟨m, _, hm⟩ := List.mem_map.mp hrow
      exact ⟨m, hm.symm⟩
  · intro t cs w rs h row hrow c hc
    unfold Table.select at h
    obtain ⟨frows, hf, h2⟩ := except_bind_ok h
    simp only [Except.ok.injEq] at h2
    subst h2
    obtain ⟨r0, _, hr0⟩ := List.mem_map.mp hrow
    subst hr0
    exact alookup_foldl_projNone t.colNames r0 c hc cs [] rfl

/-- Witness for C10: the unknown name `zzz` appears as NULL in a JOIN
projection but is dropped by the single-table projection. -/
theorem c10_join_projection_witness :
    alookup (projectJoinRow ["id", "zzz"] [("id", Value.int 1)]) "zzz" =
        some Value.null ∧
    alookup [("id", Value.int 1)] "zzz" = none :=
  ⟨c10_join_projection.2.1 ["id", "zzz"] [("id", Value.int 1)] "zzz" (by decide) rfl,
   c10_join_projection.2.2.2 tableC1 ["id", "zzz"] none
     [[("id", Value.int 1)], [("id", Value.int 2)]] rfl
     [("id", Value.int 1)] (by decide) "zzz" (by decide)⟩

/-! ## C9 — snapshot write on mutating commands only -/

/-- The six mutating command kinds. -/
def isMutating : Cmd → Bool
  | .createTable _ _ => true
  | .dropTable _ => true
  | .createIndex _ _ => true
  | .insert _ _ _ => true
  | .update _ _ _ => true
  | .delete _ _ => true
  | _ => false

/-- C9: if a mutating command succeeds, the snapshot write was attempted
(and its recorded outcome is exactly the external write result, which —
being ignored by the source — cannot reverse the in-memory mutation: the
resulting database and returned payload are independent of it); a
non-mutating command attempts no snapshot write and leaves the database
unchanged. -/
theorem c9_snapshot_effects (db : Database) (so : Bool) (cmd : Cmd) :
    (isMutating cmd = true → ∀ p : Payload, (dispatch db so cmd).r = .ok (true, p) →
      (dispatch db so cmd).saveResult = some so) ∧
    (isMutating cmd = false →
      (dispatch db so cmd).saveResult = none ∧ (dispatch db so cmd).db = db) ∧
    (∀ so2 : Bool, (dispatch db so cmd).db = (dispatch db so2 cmd).db ∧
      (dispatch db so cmd).r = (dispatch db so2 cmd).r) := by
  cases cmd with
  | createTable tn cols =>
    rcases h : db.create_table tn cols with ⟨db1, ok, e⟩
    cases ok <;> simp [dispatch, h, isMutating]
  | dropTable tn =>
    rcases h : db.drop_table tn with ⟨db1, ok⟩
    cases ok <;> simp [dispatch, h, isMutating]
  | createIndex tn cn =>
    rcases h : db.get_table tn with _ | t
    · simp [dispatch, h, isMutating]
    · rcases h2 : t.create_index cn with ⟨t1, ok⟩
      cases ok <;> simp [dispatch, h, h2, isMutating]
  | insert tn cols vals =>
    rcases h : db.get_table tn with _ | t
    · simp [dispatch, h, isMutating]
    · rcases h2 : t.insert (zipDict cols vals) with ⟨t1, ok, e⟩
      cases ok <;> simp [dispatch, h, h2, isMutating]
  | select tn cs w =>
    rcases h : db.get_table tn with _ | t
    · simp [dispatch, h, isMutating]
    · rcases h2 : t.select cs w with e | rs <;> simp [dispatch, h, h2, isMutating]
  | selectJoin cs ltn rtn lc rc jt w =>
    rcases h : (match w with
      | some conds => filterJoinRows conds (db.join ltn rtn lc rc jt)
      | none => Except.ok (db.join ltn rtn lc rc jt)) with e | rs <;>
      simp [dispatch, h, isMutating]
  | update tn sv w =>
    rcases h : db.get_table tn with _ | t
    · simp [dispatch, h, isMutating]
    · rcases h2 : t.update sv w with ⟨t1, e | p⟩
      · simp [dispatch, h, h2, isMutating]
      · rcases p with ⟨n, _ | e⟩ <;> simp [dispatch, h, h2, isMutating]
  | delete tn w =>
    rcases h : db.get_table tn with _ | t
    · simp [dispatch, h, isMutating]
    · rcases h2 : t.delete w with e | p
      · simp [dispatch, h, h2, isMutating]
      · rcases p with ⟨t1, n⟩
        simp [dispatch, h, h2, isMutating]
  | showTables => simp [dispatch, isMutating]
  | describe tn =>
    rcases h : db.get_table tn with _ | t <;> simp [dispatch, h, isMutating]

/-- Witness for C9 at a concrete mutating and a concrete non-mutating
command. -/
theorem c9_snapshot_effects_witness :
    (dispatch dbC3 true (.insert "a" ["id"] [Value.int 5])).saveResult = some true ∧
    (dispatch dbC3 true (.select "a" none none)).saveResult = none ∧
    (dispatch dbC3 true (.select "a" none none)).db = dbC3 :=
  ⟨(c9_snapshot_effects dbC3 true (.insert "a" ["id"] [Value.int 5])).1 rfl
      (.msg "1 row inserted") rfl,
   ((c9_snapshot_effects dbC3 true (.select "a" none none)).2.1 rfl).1,
   ((c9_snapshot_effects dbC3 true (.select "a" none none)).2.1 rfl).2⟩

/-! ## C6 — UPDATE unique check -/

/-- C6: the SET validation loop of `Table.update` rejects a non-NULL new
value on a unique/primary-key indexed column exactly when the column's index
maps that (supplied) value to some row other than the row being updated;
in particular a row may be assigned a value the index maps only to itself. -/
theorem c6_update_unique_check (cols : List Column) (idxs : List (String × Index))
    (r : SRow) (c : Column) (idx : Index) (v : Value)
    (h1 : cols.find? (fun x => x.name = c.name) = some c)
    (h2 : alookup idxs c.name = some idx)
    (h3 : (c.unique || c.primary_key) = true)
    (h4 : v ≠ .null)
    (h5 : c.validate v = none) :
    (validateSet cols idxs r [(c.name, v)] =
      (if Index.lookup idx v ≠ [] ∧ ¬ ((Index.lookup idx v).all fun rid => rid = r.id)
       then some ("Duplicate value for " ++ c.name) else none)) ∧
    ((Index.lookup idx v ≠ [] ∧ ¬ ((Index.lookup idx v).all fun rid => rid = r.id)) ↔
      ∃ rid ∈ Index.lookup idx v, rid ≠ r.id) := by
  constructor
  · simp only [validateSet, h1, h2, h5, h3]
    have hv : decide (¬ v = Value.null) = true := by simp [h4]
    by_cases h7 : Index.lookup idx v = []
    · simp [h7, validateSet]
    · rcases hall : (Index.lookup idx v).all fun rid => decide (rid = r.id) with _ | _
      · simp [h7, hall, hv, validateSet]
      · simp [h7, hall, hv, validateSet]
  · constructor
    · rintro ⟨hne, hall⟩
      simp only [List.all_eq_true, decide_eq_true_eq] at hall
      push_neg at hall
      obtain ⟨rid, hmem, hrid⟩ := hall
      exact ⟨rid, hmem, hrid⟩
    · rintro ⟨rid, hmem, hrid⟩
      refine ⟨fun hnil => by simp [hnil] at hmem, fun hall => ?_⟩
      simp only [List.all_eq_true, decide_eq_true_eq] at hall
      exact hrid (hall rid hmem)

/-- Witness for C6: value 20 is mapped by the index to row 1, a different
row than row 0 being updated, so the update is rejected; the same value
mapped only to the row itself is allowed. -/
theorem c6_update_unique_check_witness :
    validateSet [⟨"u", "INT", none, false, true, true⟩] [("u", [(Value.int 20, [1])])]
        ⟨0, [("u", Value.int 10)]⟩ [("u", Value.int 20)] =
      some "Duplicate value for u" ∧
    validateSet [⟨"u", "INT", none, false, true, true⟩] [("u", [(Value.int 20, [0])])]
        ⟨0, [("u", Value.int 20)]⟩ [("u", Value.int 20)] = none := by
  constructor
  · have h := (c6_update_unique_check [⟨"u", "INT", none, false, true, true⟩]
      [("u", [(Value.int 20, [1])])] ⟨0, [("u", Value.int 10)]⟩
      ⟨"u", "INT", none, false, true, true⟩ [(Value.int 20, [1])] (Value.int 20)
      rfl rfl rfl (by decide) rfl).1
    rw [h]
    decide
  · have h := (c6_update_unique_check [⟨"u", "INT", none, false, true, true⟩]
      [("u", [(Value.int 20, [0])])] ⟨0, [("u", Value.int 20)]⟩
      ⟨"u", "INT", none, false, true, true⟩ [(Value.int 20, [0])] (Value.int 20)
      rfl rfl rfl (by decide) rfl).1
    rw [h]
    decide

/-! ## Index invariants

`IdxInv cn rows idx` is the row-store/index consistency invariant of §3 of
the specification, stated bucket-wise (finitely, hence decidably): bucket
keys are pairwise `==`-distinct (a Python dict property), buckets hold no
duplicate row ids, every bucket entry is backed by a live row holding a
`==`-equal value, and every live row is found by `lookup` of its value. -/

def IdxInv (cn : String) (rows : List SRow) (idx : Index) : Prop :=
  idx.Pairwise (fun p q => pyEq p.1 q.1 = false) ∧
  (∀ p ∈ idx, p.2.Nodup) ∧
  (∀ p ∈ idx, ∀ rid ∈ p.2,
    ∃ r ∈ rows, r.id = rid ∧ pyEq ((r.get cn).getD .null) p.1 = true) ∧
  (∀ r ∈ rows, r.id ∈ Index.lookup idx ((r.get cn).getD .null))

theorem lookup_congr {a b : Value} (idx : Index) (h : pyEq a b = true) :
    Index.lookup idx a = Index.lookup idx b := by
  induction idx with
  | nil => rfl
  | cons p rest ih =>
    by_cases hk : pyEq p.1 a = true
    · have hkb : pyEq p.1 b = true := pyEq_trans hk h
      simp [Index.lookup, hk, hkb]
    · have hkb : ¬ pyEq p.1 b = true := fun hh =>
        hk (pyEq_trans hh (pyEq_symm h))
      simp only [Index.lookup, Bool.not_eq_true] at hk hkb
      simp [Index.lookup, hk, hkb, ih]

theorem lookup_mem_bucket {idx : Index} {v : Value} {rid : Nat}
    (h : rid ∈ Index.lookup idx v) :
    ∃ p ∈ idx, pyEq p.1 v = true ∧ rid ∈ p.2 := by
  induction idx with
  | nil => simp [Index.lookup] at h
  | cons p rest ih =>
    by_cases hk : pyEq p.1 v = true
    · simp only [Index.lookup, hk, if_true] at h
      exact ⟨p, List.mem_cons_self _ _, hk, h⟩
    · simp only [Index.lookup, hk, Bool.not_eq_true] at h
      rw [if_neg (by simp [hk])] at h
      obtain ⟨q, hq, hq2⟩ := ih h
      exact ⟨q, List.mem_cons_of_mem _ hq, hq2⟩

theorem bucket_lookup {idx : Index} {p : Value × List Nat}
    (hne : idx.Pairwise (fun p q => pyEq p.1 q.1 = false)) (hp : p ∈ idx) :
    Index.lookup idx p.1 = p.2 := by
  induction idx with
  | nil => simp at hp
  | cons q rest ih =>
    rcases List.mem_cons.mp hp with h | h
    · subst h
      simp [Index.lookup, pyEq_refl]
    · have hq : pyEq q.1 p.1 = false := (List.pairwise_cons.mp hne).1 p h
      simp only [Index.lookup]
      rw [if_neg (by simp [hq])]
      exact ih (List.pairwise_cons.mp hne).2 h

theorem lookup_add (idx : Index) (v : Value) (rid : Nat) (w : Value) :
    Index.lookup (Index.add idx v rid) w =
      if pyEq v w then Index.lookup idx w ++ [rid] else Index.lookup idx w := by
  induction idx with
  | nil =>
    by_cases h : pyEq v w = true
    · simp [Index.add, Index.lookup, h]
    · simp only [Bool.not_eq_true] at h
      simp [Index.add, Index.lookup, h]
  | cons p rest ih =>
    by_cases hkv : pyEq p.1 v = true
    · by_cases hkw : pyEq p.1 w = true
      · have hvw : pyEq v w = true := pyEq_trans (pyEq_symm hkv) hkw
        simp [Index.add, Index.lookup, hkv, hkw, hvw]
      · have hvw : pyEq v w = false := by
          rcases h : pyEq v w with _ | _
          · rfl
          · exact absurd (pyEq_trans hkv h) (by simp [hkw])
        simp only [Bool.not_eq_true] at hkw
        simp [Index.add, Index.lookup, hkv, hkw, hvw]
    · by_cases hkw : pyEq p.1 w = true
      · have hvw : pyEq v w = false := by
          rcases h : pyEq v w with _ | _
          · rfl
          · exact absurd (pyEq_symm (pyEq_trans h (pyEq_symm hkw))) (by simp [hkv])
        simp only [Bool.not_eq_true] at hkv
        simp [Index.add, Index.lookup, hkv, hkw, hvw]
      · simp only [Bool.not_eq_true] at hkv hkw
        simp [Index.add, Index.lookup, hkv, hkw, ih]

theorem lookup_nil_of_no_match {idx : Index} {w : Value}
    (h : ∀ p ∈ idx, pyEq p.1 w = false) : Index.lookup idx w = [] := by
  induction idx with
  | nil => rfl
  | cons p rest ih =>
    simp only [Index.lookup]
    rw [if_neg (by simp [h p (List.mem_cons_self _ _)])]
    exact ih (fun q hq => h q (List.mem_cons_of_mem _ hq))

theorem lookup_remove {idx : Index} (v : Value) (rid : Nat) (w : Value)
    (hne : idx.Pairwise (fun p q => pyEq p.1 q.1 = false)) :
    Index.lookup (Index.remove idx v rid) w =
      if pyEq v w then (Index.lookup idx w).erase rid else Index.lookup idx w := by
  induction idx with
  | nil =>
    by_cases h : pyEq v w = true
    · simp [Index.remove, Index.lookup, h]
    · simp only [Bool.not_eq_true] at h
      simp [Index.remove, Index.lookup, h]
  | cons p rest ih =>
    obtain ⟨hhead, htail⟩ := List.pairwise_cons.mp hne
    have hb1 : (if rid ∈ p.2 then p.2.erase rid else p.2) = p.2.erase rid := by
      by_cases hm : rid ∈ p.2
      · simp [hm]
      · simp [hm, List.erase_of_not_mem hm]
    by_cases hkv : pyEq p.1 v = true
    · by_cases hkw : pyEq p.1 w = true
      · have hvw : pyEq v w = true := pyEq_trans (pyEq_symm hkv) hkw
        simp only [Index.remove, hkv, if_true, hb1]
        by_cases hnil : p.2.erase rid = []
        · have hrest : Index.lookup rest w = [] := by
            refine lookup_nil_of_no_match (fun q hq => ?_)
            rcases hq2 : pyEq q.1 w with _ | _
            · rfl
            · exact absurd (pyEq_symm (pyEq_trans hq2 (pyEq_symm hkw)))
                (by simp [hhead q hq])
          rw [if_pos hnil, if_pos hvw, hrest]
          simp only [Index.lookup, hkw, if_true]
          exact hnil.symm
        · rw [if_neg hnil, if_pos hvw]
          simp [Index.lookup, hkw]
      · have hvw : pyEq v w = false := by
          rcases h : pyEq v w with _ | _
          · rfl
          · exact absurd (pyEq_trans hkv h) (by simp [hkw])
        simp only [Bool.not_eq_true] at hkw
        simp only [Index.remove, hkv, if_true, hb1]
        by_cases hnil : p.2.erase rid = []
        · rw [if_pos hnil, if_neg (by simp [hvw])]
          simp [Index.lookup, hkw]
        · rw [if_neg hnil, if_neg (by simp [hvw])]
          simp [Index.lookup, hkw]
    · by_cases hkw : pyEq p.1 w = true
      · have hvw : pyEq v w = false := by
          rcases h : pyEq v w with _ | _
          · rfl
          · exact absurd (pyEq_symm (pyEq_trans h (pyEq_symm hkw))) (by simp [hkv])
        simp only [Bool.not_eq_true] at hkv
        simp [Index.remove, Index.lookup, hkv, hkw, hvw]
      · simp only [Bool.not_eq_true] at hkv hkw
        simp [Index.remove, Index.lookup, hkv, hkw, ih htail]

theorem add_keys_cases {idx : Index} {v : Value} {rid : Nat} {p : Value × List Nat}
    (h : p ∈ Index.add idx v rid) :
    (∃ q ∈ idx, q.1 = p.1) ∨ p.1 = v := by
  induction idx with
  | nil =>
    simp only [Index.add, List.mem_singleton] at h
    right
    rw [h]
  | cons q rest ih =>
    by_cases hk : pyEq q.1 v = true
    · simp only [Index.add, hk, if_true] at h
      rcases List.mem_cons.mp h with h1 | h1
      · exact Or.inl ⟨q, List.mem_cons_self _ _, by rw [h1]⟩
      · exact Or.inl ⟨p, List.mem_cons_of_mem _ h1, rfl⟩
    · simp only [Index.add, hk, Bool.not_eq_true] at h
      rw [if_neg (by simp [hk])] at h
      rcases List.mem_cons.mp h with h1 | h1
      · exact Or.inl ⟨q, List.mem_cons_self _ _, by rw [h1]⟩
      · rcases ih h1 with ⟨q2, hq2, hq3⟩ | h2
        · exact Or.inl ⟨q2, List.mem_cons_of_mem _ hq2, hq3⟩
        · exact Or.inr h2

theorem add_pairwise {idx : Index} {v : Value} {rid : Nat}
    (h : idx.Pairwise (fun p q => pyEq p.1 q.1 = false)) :
    (Index.add idx v rid).Pairwise (fun p q => pyEq p.1 q.1 = false) := by
  induction idx with
  | nil => simp [Index.add]
  | cons p rest ih =>
    obtain ⟨hhead, htail⟩ := List.pairwise_cons.mp h
    by_cases hk : pyEq p.1 v = true
    · simp only [Index.add, hk, if_true]
      exact List.pairwise_cons.mpr ⟨hhead, htail⟩
    · simp only [Index.add, hk, Bool.not_eq_true]
      rw [if_neg (by simp [hk])]
      refine List.pairwise_cons.mpr ⟨?_, ih htail⟩
      intro q hq
      rcases add_keys_cases hq with ⟨q2, hq2, hq3⟩ | h2
      · rw [← hq3]
        exact hhead q2 hq2
      · rw [h2]
        rcases hres : pyEq p.1 v with _ | _
        · rfl
        · exact absurd hres (by simp [hk])

theorem remove_sub {idx : Index} {v : Value} {rid : Nat} {p : Value × List Nat}
    (h : p ∈ Index.remove idx v rid) :
    ∃ q ∈ idx, q.1 = p.1 ∧ (p.2 = q.2 ∨ p.2 = q.2.erase rid) := by
  induction idx with
  | nil => simp [Index.remove] at h
  | cons q rest ih =>
    by_cases hk : pyEq q.1 v = true
    · simp only [Index.remove, hk, if_true] at h
      by_cases hnil : (if rid ∈ q.2 then q.2.erase rid else q.2) = []
      · rw [if_pos hnil] at h
        exact ⟨p, List.mem_cons_of_mem _ h, rfl, Or.inl rfl⟩
      · rw [if_neg hnil] at h
        rcases List.mem_cons.mp h with h1 | h1
        · subst h1
          refine ⟨q, List.mem_cons_self _ _, rfl, ?_⟩
          by_cases hm : rid ∈ q.2
          · simp [hm]
          · simp [hm]
        · exact ⟨p, List.mem_cons_of_mem _ h1, rfl, Or.inl rfl⟩
    · simp only [Index.remove, hk, Bool.not_eq_true] at h
      rw [if_neg (by simp [hk])] at h
      rcases List.mem_cons.mp h with h1 | h1
      · subst h1
        exact ⟨q, List.mem_cons_self _ _, rfl, Or.inl rfl⟩
      · obtain ⟨q2, hq2, hq3, hq4⟩ := ih h1
        exact ⟨q2, List.mem_cons_of_mem _ hq2, hq3, hq4⟩

theorem remove_pairwise {idx : Index} {v : Value} {rid : Nat}
    (h : idx.Pairwise (fun p q => pyEq p.1 q.1 = false)) :
    (Index.remove idx v rid).Pairwise (fun p q => pyEq p.1 q.1 = false) := by
  induction idx with
  | nil => simp [Index.remove]
  | cons p rest ih =>
    obtain ⟨hhead, htail⟩ := List.pairwise_cons.mp h
    by_cases hk : pyEq p.1 v = true
    · simp only [Index.remove, hk, if_true]
      by_cases hnil : (if rid ∈ p.2 then p.2.erase rid else p.2) = []
      · rw [if_pos hnil]
        exact htail
      · rw [if_neg hnil]
        exact List.pairwise_cons.mpr ⟨hhead, htail⟩
    · simp only [Index.remove, hk, Bool.not_eq_true]
      rw [if_neg (by simp [hk])]
      refine List.pairwise_cons.mpr ⟨?_, ih htail⟩
      intro q hq
      obtain ⟨q2, hq2, hq3, _⟩ := remove_sub hq
      rw [← hq3]
      exact hhead q2 hq2

theorem add_nodup {idx : Index} {v : Value} {rid : Nat}
    (hnd : ∀ p ∈ idx, p.2.Nodup) (hfree : rid ∉ Index.lookup idx v) :
    ∀ p ∈ Index.add idx v rid, p.2.Nodup := by
  induction idx with
  | nil =>
    intro p hp
    simp only [Index.add, List.mem_singleton] at hp
    subst hp
    simp
  | cons q rest ih =>
    intro p hp
    by_cases hk : pyEq q.1 v = true
    · simp only [Index.add, hk, if_true] at hp
      simp only [Index.lookup, hk, if_true] at hfree
      rcases List.mem_cons.mp hp with h1 | h1
      · subst h1
        simp only [List.nodup_append, List.nodup_cons]
        exact ⟨hnd q (List.mem_cons_self _ _), by simp,
          by simpa using fun hh => hfree hh⟩
      · exact hnd p (List.mem_cons_of_mem _ h1)
    · simp only [Index.add, hk, Bool.not_eq_true] at hp
      rw [if_neg (by simp [hk])] at hp
      simp only [Index.lookup] at hfree
      rw [if_neg (by simp [hk])] at hfree
      rcases List.mem_cons.mp hp with h1 | h1
      · subst h1
        exact hnd q (List.mem_cons_self _ _)
      · exact ih (fun q2 hq2 => hnd q2 (List.mem_cons_of_mem _ hq2)) hfree p h1

theorem remove_nodup {idx : Index} {v : Value} {rid : Nat}
    (hnd : ∀ p ∈ idx, p.2.Nodup) :
    ∀ p ∈ Index.remove idx v rid, p.2.Nodup := by
  intro p hp
  obtain ⟨q, hq, _, hcase⟩ := remove_sub hp
  rcases hcase with h | h
  · rw [h]
    exact hnd q hq
  · rw [h]
    exact (hnd q hq).erase rid

/-- The §3 consistency statement, derived from the bucket-wise invariant:
`lookup v` returns exactly the identities of rows currently holding a value
`==`-equal to `v`. -/
theorem IdxInv.lookup_iff {cn : String} {rows : List SRow} {idx : Index}
    (h : IdxInv cn rows idx) (v : Value) (rid : Nat) :
    rid ∈ Index.lookup idx v ↔
      ∃ r ∈ rows, r.id = rid ∧ pyEq ((r.get cn).getD .null) v = true := by
  obtain ⟨hne, hnd, hsound, hcomp⟩ := h
  constructor
  · intro hmem
    obtain ⟨p, hp, hpv, hrid⟩ := lookup_mem_bucket hmem
    obtain ⟨r, hr, hrid2, hval⟩ := hsound p hp rid hrid
    exact ⟨r, hr, hrid2, pyEq_trans hval hpv⟩
  · rintro ⟨r, hr, rfl, hval⟩
    rw [← lookup_congr idx hval]
    exact hcomp r hr

theorem IdxInv.mono {cn : String} {rows1 rows2 : List SRow} {idx : Index}
    (hm : ∀ x, x ∈ rows1 ↔ x ∈ rows2) (h : IdxInv cn rows1 idx) :
    IdxInv cn rows2 idx := by
  obtain ⟨hne, hnd, hsound, hcomp⟩ := h
  refine ⟨hne, hnd, ?_, ?_⟩
  · intro p hp rid hrid
    obtain ⟨r, hr, h2⟩ := hsound p hp rid hrid
    exact ⟨r, (hm r).mp hr, h2⟩
  · intro r hr
    exact hcomp r ((hm r).mpr hr)

/-- Adding a fresh row and its index entry preserves the invariant. -/
theorem IdxInv.insert_row {cn : String} {rows : List SRow} {idx : Index}
    (h : IdxInv cn rows idx) (newRow : SRow)
    (hfresh : ∀ r ∈ rows, r.id ≠ newRow.id) :
    IdxInv cn (rows ++ [newRow])
      (Index.add idx ((newRow.get cn).getD .null) newRow.id) := by
  set v := (newRow.get cn).getD .null with hv
  have hfree : newRow.id ∉ Index.lookup idx v := by
    intro hmem
    obtain ⟨r, hr, hrid, _⟩ := (h.lookup_iff _ _).mp hmem
    exact hfresh r hr hrid
  obtain ⟨hne, hnd, hsound, hcomp⟩ := h
  have hiff := IdxInv.lookup_iff ⟨hne, hnd, hsound, hcomp⟩
  refine ⟨add_pairwise hne, add_nodup hnd hfree, ?_, ?_⟩
  · intro p hp rid hrid
    have hb : Index.lookup (Index.add idx v newRow.id) p.1 = p.2 :=
      bucket_lookup (add_pairwise hne) hp
    rw [← hb, lookup_add] at hrid
    by_cases hvp : pyEq v p.1 = true
    · rw [if_pos hvp] at hrid
      rcases List.mem_append.mp hrid with h1 | h1
      · obtain ⟨r, hr, h2, h3⟩ := (hiff p.1 rid).mp h1
        exact ⟨r, List.mem_append_left _ hr, h2, h3⟩
      · simp only [List.mem_singleton] at h1
        subst h1
        exact ⟨newRow, List.mem_append_right _ (List.mem_singleton.mpr rfl), rfl, hvp⟩
    · rw [if_neg (by simp [hvp])] at hrid
      obtain ⟨r, hr, h2, h3⟩ := (hiff p.1 rid).mp hrid
      exact ⟨r, List.mem_append_left _ hr, h2, h3⟩
  · intro r hr
    rcases List.mem_append.mp hr with h1 | h1
    · rw [lookup_add]
      by_cases hvr : pyEq v ((r.get cn).getD .null) = true
      · rw [if_pos hvr]
        exact List.mem_append_left _ (hcomp r h1)
      · rw [if_neg (by simp [hvr])]
        exact hcomp r h1
    · simp only [List.mem_singleton] at h1
      subst h1
      rw [lookup_add, if_pos (pyEq_refl v)]
      exact List.mem_append_right _ (List.mem_singleton.mpr rfl)

theorem lookup_nodup {idx : Index} (hnd : ∀ p ∈ idx, p.2.Nodup) (w : Value) :
    (Index.lookup idx w).Nodup := by
  induction idx with
  | nil => simp [Index.lookup]
  | cons p rest ih =>
    by_cases hk : pyEq p.1 w = true
    · simp only [Index.lookup, hk, if_true]
      exact hnd p (List.mem_cons_self _ _)
    · simp only [Index.lookup]
      rw [if_neg (by simp [hk])]
      exact ih (fun q hq => hnd q (List.mem_cons_of_mem _ hq))

/-- Removing a row and its index entry preserves the invariant. -/
theorem IdxInv.delete_row {cn : String} {ctx1 ctx2 : List SRow} {idx : Index}
    (r : SRow) (h : IdxInv cn (ctx1 ++ r :: ctx2) idx)
    (hids : ∀ x ∈ ctx1 ++ ctx2, x.id ≠ r.id) :
    IdxInv cn (ctx1 ++ ctx2) (Index.remove idx ((r.get cn).getD .null) r.id) := by
  set v := (r.get cn).getD .null with hv
  obtain ⟨hne, hnd, hsound, hcomp⟩ := h
  have hiff := IdxInv.lookup_iff ⟨hne, hnd, hsound, hcomp⟩
  refine ⟨remove_pairwise hne, remove_nodup hnd, ?_, ?_⟩
  · intro p hp rid hrid
    have hb : Index.lookup (Index.remove idx v r.id) p.1 = p.2 :=
      bucket_lookup (remove_pairwise hne) hp
    rw [← hb, lookup_remove v r.id p.1 hne] at hrid
    by_cases hvp : pyEq v p.1 = true
    · rw [if_pos hvp] at hrid
      obtain ⟨hner, hmem⟩ := (List.Nodup.mem_erase_iff (lookup_nodup hnd p.1)).mp hrid
      obtain ⟨row, hrow, h2, h3⟩ := (hiff p.1 rid).mp hmem
      rcases List.mem_append.mp hrow with h4 | h4
      · exact ⟨row, List.mem_append_left _ h4, h2, h3⟩
      · rcases List.mem_cons.mp h4 with h5 | h5
        · subst h5
          exact absurd h2 (by simpa using fun hh => hner hh.symm)
        · exact ⟨row, List.mem_append_right _ h5, h2, h3⟩
    · rw [if_neg (by simp [hvp])] at hrid
      obtain ⟨row, hrow, h2, h3⟩ := (hiff p.1 rid).mp hrid
      rcases List.mem_append.mp hrow with h4 | h4
      · exact ⟨row, List.mem_append_left _ h4, h2, h3⟩
      · rcases List.mem_cons.mp h4 with h5 | h5
        · subst h5
          exact absurd h3 (by simp [hvp])
        · exact ⟨row, List.mem_append_right _ h5, h2, h3⟩
  · intro x hx
    have hx2 : x ∈ ctx1 ++ r :: ctx2 := by
      rcases List.mem_append.mp hx with h4 | h4
      · exact List.mem_append_left _ h4
      · exact List.mem_append_right _ (List.mem_cons_of_mem _ h4)
    rw [lookup_remove v r.id _ hne]
    by_cases hvx : pyEq v ((x.get cn).getD .null) = true
    · rw [if_pos hvx]
      exact (List.mem_erase_of_ne (hids x hx)).mpr (hcomp x hx2)
    · rw [if_neg (by simp [hvx])]
      exact hcomp x hx2

/-- Rewriting one row's value in place (remove old entry, add new entry)
preserves the invariant: the per-row index maintenance of `Table.update`. -/
theorem IdxInv.update_row {cn : String} {ctx1 ctx2 : List SRow} {idx : Index}
    (r r1 : SRow) (h : IdxInv cn (ctx1 ++ r :: ctx2) idx)
    (hids : ∀ x ∈ ctx1 ++ ctx2, x.id ≠ r.id) (hr1 : r1.id = r.id) :
    IdxInv cn (ctx1 ++ r1 :: ctx2)
      (Index.add (Index.remove idx ((r.get cn).getD .null) r.id)
        ((r1.get cn).getD .null) r1.id) := by
  have h1 := IdxInv.delete_row r h hids
  have h2 := h1.insert_row r1 (by
    intro x hx
    rw [hr1]
    exact hids x hx)
  refine IdxInv.mono (fun x => ?_) h2
  constructor
  · intro hx
    rcases List.mem_append.mp hx with h4 | h4
    · rcases List.mem_append.mp h4 with h5 | h5
      · exact List.mem_append_left _ h5
      · exact List.mem_append_right _ (List.mem_cons_of_mem _ h5)
    · simp only [List.mem_singleton] at h4
      subst h4
      exact List.mem_append_right _ (List.mem_cons_self _ _)
  · intro hx
    rcases List.mem_append.mp hx with h4 | h4
    · exact List.mem_append_left _ (List.mem_append_left _ h4)
    · rcases List.mem_cons.mp h4 with h5 | h5
      · subst h5
        exact List.mem_append_right _ (List.mem_singleton.mpr rfl)
      · exact List.mem_append_left _ (List.mem_append_right _ h5)

/-! ## Table well-formedness

Every state reachable through the engine's operations satisfies `TableWF`:
duplicate-free schema, rows keyed exactly by the schema in order, unique
bounded row identities, a duplicate-free index registry over schema columns
containing every primary-key/unique column, and the row/index consistency
invariant for every index. -/

def TableWF (t : Table) : Prop :=
  t.colNames.Nodup ∧
  (∀ r ∈ t.rows, r.vals.map Prod.fst = t.colNames) ∧
  ((t.rows.map SRow.id).Nodup ∧ ∀ r ∈ t.rows, r.id < t.next_row_id) ∧
  ((t.indexes.map Prod.fst).Nodup ∧ ∀ p ∈ t.indexes, p.1 ∈ t.colNames) ∧
  (∀ c ∈ t.columns, (c.primary_key = true ∨ c.unique = true) →
    c.name ∈ t.indexes.map Prod.fst) ∧
  (∀ p ∈ t.indexes, IdxInv p.1 t.rows p.2)

theorem alookup_of_mem_nodup {α : Type} {d : List (String × α)} {p : String × α}
    (hnd : (d.map Prod.fst).Nodup) (hp : p ∈ d) : alookup d p.1 = some p.2 := by
  induction d with
  | nil => simp at hp
  | cons q rest ih =>
    rcases List.mem_cons.mp hp with h | h
    · subst h
      simp [alookup]
    · have hq : q.1 ≠ p.1 := by
        intro hh
        have : p.1 ∈ rest.map Prod.fst := List.mem_map.mpr ⟨p, h, rfl⟩
        simp only [List.map_cons, List.nodup_cons] at hnd
        exact hnd.1 (hh ▸ this)
      simp only [alookup, hq, if_false]
      exact ih (by simpa using (List.nodup_cons.mp (by simpa using hnd)).2) h

theorem nodup_mid {l1 l2 : List SRow} {a : SRow}
    (h : ((l1 ++ a :: l2).map SRow.id).Nodup) : ∀ x ∈ l1 ++ l2, x.id ≠ a.id := by
  intro x hx
  rw [List.map_append, List.map_cons] at h
  obtain ⟨h1, h2, h3⟩ := List.nodup_append.mp h
  rcases List.mem_append.mp hx with h4 | h4
  · intro hh
    have hmem : x.id ∈ a.id :: List.map SRow.id l2 := by
      rw [hh]
      exact List.mem_cons_self _ _
    exact h3 (List.mem_map.mpr ⟨x, h4, rfl⟩) hmem
  · intro hh
    have := (List.nodup_cons.mp h2).1
    exact this (hh ▸ List.mem_map.mpr ⟨x, h4, rfl⟩)

theorem validateSet_none_keys {cols : List Column} {idxs : List (String × Index)}
    {r : SRow} {sv : List (String × Value)}
    (h : validateSet cols idxs r sv = none) :
    ∀ p ∈ sv, p.1 ∈ cols.map Column.name := by
  induction sv with
  | nil => simp
  | cons q rest ih =>
    intro p hp
    rcases hf : cols.find? (fun c => c.name = q.1) with _ | c
    · simp only [validateSet, hf] at h
      exact absurd h (by simp)
    · simp only [validateSet, hf] at h
      rcases hv : c.validate q.2 with _ | e
      · simp only [hv] at h
        rcases List.mem_cons.mp hp with h1 | h1
        · subst h1
          have hc : c ∈ cols := List.mem_of_find?_eq_some hf
          have hname : c.name = p.1 := by simpa using List.find?_some hf
          exact hname ▸ List.mem_map.mpr ⟨c, hc, rfl⟩
        · by_cases hcond : ((q.2 ≠ Value.null : Bool) && (c.unique || c.primary_key) &&
            (match alookup idxs q.1 with
             | some idx =>
               (Index.lookup idx q.2 ≠ [] : Bool) &&
                 ! (Index.lookup idx q.2).all (fun rid => rid = r.id)
             | none => false)) = true
          · rw [if_pos hcond] at h
            simp at h
          · rw [if_neg hcond] at h
            exact ih h p h1
      · simp only [hv] at h
        exact absurd h (by simp)

/-- The common shape of `removeOlds`/`addNews`: fold an index transformer
over the touched columns. -/
def foldIdx (F : String → Index → Index) (sv : List (String × Value))
    (idxs : List (String × Index)) : List (String × Index) :=
  sv.foldl (fun acc p =>
    match alookup acc p.1 with
    | some idx => dictSet acc p.1 (F p.1 idx)
    | none => acc) idxs

theorem removeOlds_eq (sv : List (String × Value)) (r : SRow)
    (idxs : List (String × Index)) :
    removeOlds sv r idxs =
      foldIdx (fun cn idx => idx.remove ((r.get cn).getD .null) r.id) sv idxs := rfl

theorem addNews_eq (sv : List (String × Value)) (r : SRow)
    (idxs : List (String × Index)) :
    addNews sv r idxs =
      foldIdx (fun cn idx => idx.add ((r.get cn).getD .null) r.id) sv idxs := rfl

theorem foldIdx_keys (F : String → Index → Index) (sv : List (String × Value))
    (idxs : List (String × Index)) :
    (foldIdx F sv idxs).map Prod.fst = idxs.map Prod.fst := by
  induction sv generalizing idxs with
  | nil => rfl
  | cons q rest ih =>
    simp only [foldIdx, List.foldl_cons]
    rcases hl : alookup idxs q.1 with _ | idx
    · exact ih idxs
    · have hk : q.1 ∈ idxs.map Prod.fst := by
        by_contra hc
        rw [alookup_none_of_not_mem_keys hc] at hl
        exact Option.noConfusion hl
      exact (ih (dictSet idxs q.1 (F q.1 idx))).trans
        (dictSet_keys_of_mem idxs q.1 (F q.1 idx) hk)

theorem foldIdx_alookup_not_mem (F : String → Index → Index)
    (sv : List (String × Value)) (idxs : List (String × Index)) (cn : String)
    (h : cn ∉ sv.map Prod.fst) :
    alookup (foldIdx F sv idxs) cn = alookup idxs cn := by
  induction sv generalizing idxs with
  | nil => rfl
  | cons q rest ih =>
    have hq : q.1 ≠ cn := fun hh => h (by simp [hh])
    have hrest : cn ∉ rest.map Prod.fst := fun hh => h (by simp [hh])
    simp only [foldIdx, List.foldl_cons]
    rcases hl : alookup idxs q.1 with _ | idx
    · exact ih idxs hrest
    · refine (ih (dictSet idxs q.1 (F q.1 idx)) hrest).trans ?_
      rw [alookup_dictSet]
      simp [hq]

theorem foldIdx_alookup_mem (F : String → Index → Index)
    (sv : List (String × Value)) (idxs : List (String × Index)) (cn : String)
    (hnd : (sv.map Prod.fst).Nodup) (h : cn ∈ sv.map Prod.fst) :
    alookup (foldIdx F sv idxs) cn = (alookup idxs cn).map (F cn) := by
  induction sv generalizing idxs with
  | nil => simp at h
  | cons q rest ih =>
    simp only [List.map_cons, List.nodup_cons] at hnd
    simp only [foldIdx, List.foldl_cons]
    by_cases hq : q.1 = cn
    · subst hq
      rcases hl : alookup idxs q.1 with _ | idx
      · refine (foldIdx_alookup_not_mem F rest idxs q.1 hnd.1).trans ?_
        rw [hl]
        rfl
      · refine (foldIdx_alookup_not_mem F rest _ q.1 hnd.1).trans ?_
        rw [alookup_dictSet, hl]
        simp
    · have hrest : cn ∈ rest.map Prod.fst := by
        simp only [List.map_cons] at h
        rcases List.mem_cons.mp h with h1 | h1
        · exact absurd h1 (fun hh => hq hh.symm)
        · exact h1
      rcases hl : alookup idxs q.1 with _ | idx
      · exact ih idxs hnd.2 hrest
      · refine (ih (dictSet idxs q.1 (F q.1 idx)) hnd.2 hrest).trans ?_
        rw [alookup_dictSet]
        simp [hq]

theorem writeSet_id (cols : List Column) (sv : List (String × Value)) (r : SRow) :
    (writeSet cols sv r).id = r.id := rfl

theorem foldl_dictSet_keys {β : Type} (g : String × β → β)
    (sv : List (String × β)) (acc : List (String × β))
    (h : ∀ p ∈ sv, p.1 ∈ acc.map Prod.fst) :
    (sv.foldl (fun a p => dictSet a p.1 (g p)) acc).map Prod.fst = acc.map Prod.fst := by
  induction sv generalizing acc with
  | nil => rfl
  | cons q rest ih =>
    simp only [List.foldl_cons]
    refine (ih (dictSet acc q.1 (g q)) ?_).trans
      (dictSet_keys_of_mem acc q.1 (g q) (h q (List.mem_cons_self _ _)))
    intro p hp
    rw [dictSet_keys_of_mem acc q.1 (g q) (h q (List.mem_cons_self _ _))]
    exact h p (List.mem_cons_of_mem _ hp)

theorem writeSet_keys (cols : List Column) (sv : List (String × Value)) (r : SRow)
    (h : ∀ p ∈ sv, p.1 ∈ r.vals.map Prod.fst) :
    (writeSet cols sv r).vals.map Prod.fst = r.vals.map Prod.fst := by
  unfold writeSet
  exact foldl_dictSet_keys _ sv r.vals h

theorem foldl_dictSet_alookup_not_mem {β : Type} (g : String × β → β)
    (sv : List (String × β)) (acc : List (String × β)) (cn : String)
    (h : cn ∉ sv.map Prod.fst) :
    alookup (sv.foldl (fun a p => dictSet a p.1 (g p)) acc) cn = alookup acc cn := by
  induction sv generalizing acc with
  | nil => rfl
  | cons q rest ih =>
    have hq : q.1 ≠ cn := fun hh => h (by simp [hh])
    have hrest : cn ∉ rest.map Prod.fst := fun hh => h (by simp [hh])
    simp only [List.foldl_cons]
    refine (ih (dictSet acc q.1 (g q)) hrest).trans ?_
    rw [alookup_dictSet]
    simp [hq]

theorem writeSet_get_not_mem (cols : List Column) (sv : List (String × Value))
    (r : SRow) (cn : String) (h : cn ∉ sv.map Prod.fst) :
    (writeSet cols sv r).get cn = r.get cn := by
  unfold writeSet SRow.get
  exact foldl_dictSet_alookup_not_mem _ sv r.vals cn h

/-- Replacing a row by one with the same identity and the same value in the
index's column keeps that index's invariant. -/
theorem IdxInv.congr_row {cn : String} {ctx1 ctx2 : List SRow} {idx : Index}
    (r r1 : SRow) (hid : r1.id = r.id) (hval : r1.get cn = r.get cn)
    (h : IdxInv cn (ctx1 ++ r :: ctx2) idx) : IdxInv cn (ctx1 ++ r1 :: ctx2) idx := by
  obtain ⟨hne, hnd, hsound, hcomp⟩ := h
  refine ⟨hne, hnd, ?_, ?_⟩
  · intro p hp rid hrid
    obtain ⟨row, hrow, h2, h3⟩ := hsound p hp rid hrid
    rcases List.mem_append.mp hrow with h4 | h4
    · exact ⟨row, List.mem_append_left _ h4, h2, h3⟩
    · rcases List.mem_cons.mp h4 with h5 | h5
      · subst h5
        refine ⟨r1, List.mem_append_right _ (List.mem_cons_self _ _), hid.trans h2, ?_⟩
        rw [SRow.get] at hval ⊢
        rw [hval]
        exact h3
      · exact ⟨row, List.mem_append_right _ (List.mem_cons_of_mem _ h5), h2, h3⟩
  · intro x hx
    rcases List.mem_append.mp hx with h4 | h4
    · exact hcomp x (List.mem_append_left _ h4)
    · rcases List.mem_cons.mp h4 with h5 | h5
      · subst h5
        rw [hval, hid]
        exact hcomp r (List.mem_append_right _ (List.mem_cons_self _ _))
      · exact hcomp x (List.mem_append_right _ (List.mem_cons_of_mem _ h5))

theorem keys_tail {cols : List Column} {ctx rows : List SRow}
    (h : ∀ r ∈ ctx ++ rows, r.vals.map Prod.fst = cols.map Column.name) :
    ∀ r ∈ rows, r.vals.map Prod.fst = cols.map Column.name :=
  fun r hr => h r (List.mem_append_right _ hr)

/-- The row loop of `Table.update` preserves row keys, row identities, the
index registry's keys, and the row/index consistency invariant — also in the
partially-updated states it leaves behind on error, because each committed
row rewrites the row store and the touched indexes in the same step. -/
theorem updateRows_wf (cols : List Column) (sv : List (String × Value))
    (w : Option Where) (hsvN : (sv.map Prod.fst).Nodup) :
    ∀ (rows ctx : List SRow) (idxs : List (String × Index)),
    (∀ r ∈ ctx ++ rows, r.vals.map Prod.fst = cols.map Column.name) →
    ((ctx ++ rows).map SRow.id).Nodup →
    (idxs.map Prod.fst).Nodup →
    (∀ p ∈ idxs, IdxInv p.1 (ctx ++ rows) p.2) →
    ((updateRows cols sv w rows idxs).1.map SRow.id = rows.map SRow.id) ∧
    (∀ r ∈ (updateRows cols sv w rows idxs).1,
      r.vals.map Prod.fst = cols.map Column.name) ∧
    ((updateRows cols sv w rows idxs).2.1.map Prod.fst = idxs.map Prod.fst) ∧
    (∀ p ∈ (updateRows cols sv w rows idxs).2.1,
      IdxInv p.1 (ctx ++ (updateRows cols sv w rows idxs).1) p.2) := by
  intro rows
  induction rows with
  | nil =>
    intro ctx idxs hkeys hidsN hidxN hidxOk
    refine ⟨rfl, by simp [updateRows], rfl, ?_⟩
    intro p hp
    refine IdxInv.mono (fun x => ?_) (hidxOk p hp)
    simp [updateRows]
  | cons r rest ih =>
    intro ctx idxs hkeys hidsN hidxN hidxOk
    rcases hm : matchWhere r.vals w with e | b
    · have heq : updateRows cols sv w (r :: rest) idxs = (r :: rest, idxs, .error e) := by
        simp only [updateRows, hm]
      rw [heq]
      exact ⟨rfl, keys_tail hkeys, rfl, fun p hp => hidxOk p hp⟩
    · cases b with
      | false =>
        have heq : updateRows cols sv w (r :: rest) idxs =
            (r :: (updateRows cols sv w rest idxs).1,
             (updateRows cols sv w rest idxs).2.1,
             (updateRows cols sv w rest idxs).2.2) := by
          simp only [updateRows, hm]
        have hIH := ih (ctx ++ [r]) idxs
          (fun x hx => hkeys x (by rw [List.append_assoc] at hx; exact hx))
          (by rw [List.append_assoc]; exact hidsN) hidxN
          (by
            intro p hp
            refine IdxInv.mono (fun x => ?_) (hidxOk p hp)
            simp)
        obtain ⟨hA, hB, hC, hD⟩ := hIH
        rw [heq]
        refine ⟨by simp [hA], ?_, hC, ?_⟩
        · intro x hx
          rcases List.mem_cons.mp hx with h1 | h1
          · subst h1
            exact hkeys x (List.mem_append_right _ (List.mem_cons_self _ _))
          · exact hB x h1
        · intro p hp
          refine IdxInv.mono (fun x => ?_) (hD p hp)
          simp
      | true =>
        rcases hv : validateSet cols idxs r sv with _ | err
        · have hsv_keys : ∀ p ∈ sv, p.1 ∈ cols.map Column.name :=
            validateSet_none_keys hv
          have hkeys_r : r.vals.map Prod.fst = cols.map Column.name :=
            hkeys r (List.mem_append_right _ (List.mem_cons_self _ _))
          have hr1keys : (writeSet cols sv r).vals.map Prod.fst = cols.map Column.name := by
            rw [writeSet_keys cols sv r (fun p hp => by
              rw [hkeys_r]
              exact hsv_keys p hp)]
            exact hkeys_r
          have hids : ∀ x ∈ ctx ++ rest, x.id ≠ r.id := nodup_mid hidsN
          have i2keys : (addNews sv (writeSet cols sv r) (removeOlds sv r idxs)).map
              Prod.fst = idxs.map Prod.fst := by
            rw [addNews_eq, removeOlds_eq, foldIdx_keys, foldIdx_keys]
          have hidxOk2 : ∀ p ∈ addNews sv (writeSet cols sv r) (removeOlds sv r idxs),
              IdxInv p.1 (ctx ++ writeSet cols sv r :: rest) p.2 := by
            intro p hp
            have hl2 : alookup (addNews sv (writeSet cols sv r) (removeOlds sv r idxs))
                p.1 = some p.2 :=
              alookup_of_mem_nodup (by rw [i2keys]; exact hidxN) hp
            by_cases hcn : p.1 ∈ sv.map Prod.fst
            · rw [addNews_eq, removeOlds_eq,
                foldIdx_alookup_mem _ sv _ p.1 hsvN hcn,
                foldIdx_alookup_mem _ sv _ p.1 hsvN hcn] at hl2
              rcases ho : alookup idxs p.1 with _ | idx0
              · rw [ho] at hl2
                simp at hl2
              · rw [ho] at hl2
                simp only [Option.map_some', Option.some.injEq] at hl2
                have hinv0 := hidxOk (p.1, idx0) (alookup_mem ho)
                have hstep := IdxInv.update_row r (writeSet cols sv r) hinv0 hids
                  (writeSet_id cols sv r)
                rw [← hl2]
                exact hstep
            · rw [addNews_eq, removeOlds_eq,
                foldIdx_alookup_not_mem _ sv _ p.1 hcn,
                foldIdx_alookup_not_mem _ sv _ p.1 hcn] at hl2
              have hinv0 := hidxOk (p.1, p.2) (alookup_mem hl2)
              exact IdxInv.congr_row r (writeSet cols sv r) (writeSet_id cols sv r)
                (writeSet_get_not_mem cols sv r p.1 hcn) hinv0
          have heq : updateRows cols sv w (r :: rest) idxs =
              (writeSet cols sv r ::
                 (updateRows cols sv w rest
                   (addNews sv (writeSet cols sv r) (removeOlds sv r idxs))).1,
               (updateRows cols sv w rest
                 (addNews sv (writeSet cols sv r) (removeOlds sv r idxs))).2.1,
               match (updateRows cols sv w rest
                 (addNews sv (writeSet cols sv r) (removeOlds sv r idxs))).2.2 with
               | .ok (n, none) => .ok (n + 1, none)
               | other => other) := by
            simp only [updateRows, hm, hv]
          have hIH := ih (ctx ++ [writeSet cols sv r])
            (addNews sv (writeSet cols sv r) (removeOlds sv r idxs))
            (by
              intro x hx
              rw [List.append_assoc] at hx
              rcases List.mem_append.mp hx with h1 | h1
              · exact hkeys x (List.mem_append_left _ h1)
              · rcases List.mem_cons.mp h1 with h2 | h2
                · subst h2
                  exact hr1keys
                · exact hkeys x
                    (List.mem_append_right _ (List.mem_cons_of_mem _ h2)))
            (by
              have heqids : ((ctx ++ [writeSet cols sv r]) ++ rest).map SRow.id =
                  ((ctx ++ r :: rest).map SRow.id) := by
                simp [writeSet_id]
              rw [heqids]
              exact hidsN)
            (by rw [i2keys]; exact hidxN)
            (by
              intro p hp
              refine IdxInv.mono (fun x => ?_) (hidxOk2 p hp)
              simp)
          obtain ⟨hA, hB, hC, hD⟩ := hIH
          rw [heq]
          refine ⟨by simp [hA, writeSet_id], ?_, by rw [hC, i2keys], ?_⟩
          · intro x hx
            rcases List.mem_cons.mp hx with h1 | h1
            · subst h1
              exact hr1keys
            · exact hB x h1
          · intro p hp
            refine IdxInv.mono (fun x => ?_) (hD p hp)
            simp
        · have heq : updateRows cols sv w (r :: rest) idxs =
              (r :: rest, idxs, .ok (0, some err)) := by
            simp only [updateRows, hm, hv]
          rw [heq]
          exact ⟨rfl, keys_tail hkeys, rfl, fun p hp => hidxOk p hp⟩

theorem wf_new (nm : String) (cols : List Column)
    (h : (cols.map Column.name).Nodup) : TableWF (Table.new nm cols) := by
  have hkeys : ((cols.filter (fun c => c.primary_key || c.unique)).map
      (fun c => (c.name, ([] : Index)))).map Prod.fst =
      (cols.filter (fun c => c.primary_key || c.unique)).map Column.name := by
    rw [List.map_map]
    rfl
  refine ⟨h, by simp [Table.new], ⟨by simp [Table.new], by simp [Table.new]⟩,
    ⟨?_, ?_⟩, ?_, ?_⟩
  · show ((cols.filter (fun c => c.primary_key || c.unique)).map
        (fun c => (c.name, ([] : Index)))).map Prod.fst |>.Nodup
    rw [hkeys]
    exact h.sublist (List.Sublist.map Column.name (List.filter_sublist cols))
  · intro p hp
    obtain ⟨c, hc, hceq⟩ := List.mem_map.mp hp
    have : c ∈ cols := List.mem_of_mem_filter hc
    rw [← hceq]
    exact List.mem_map.mpr ⟨c, this, rfl⟩
  · intro c hc hcu
    show c.name ∈ ((cols.filter (fun c => c.primary_key || c.unique)).map
        (fun c => (c.name, ([] : Index)))).map Prod.fst
    rw [hkeys]
    refine List.mem_map.mpr ⟨c, List.mem_filter.mpr ⟨hc, ?_⟩, rfl⟩
    rcases hcu with h1 | h1 <;> simp [h1]
  · intro p hp
    obtain ⟨c, _, hceq⟩ := List.mem_map.mp hp
    rw [← hceq]
    exact ⟨List.Pairwise.nil, by simp, by simp, by simp [Table.new]⟩

theorem insertLoop_keys {t : Table} {values : List (String × Value)} :
    ∀ {cs : List Column} {acc out : List (String × Value)},
    insertLoop t values cs acc = .ok out →
    out.map Prod.fst = acc.map Prod.fst ++ cs.map Column.name := by
  intro cs
  induction cs with
  | nil =>
    intro acc out h
    simp only [insertLoop, Except.ok.injEq] at h
    subst h
    simp
  | cons c rest ih =>
    intro acc out h
    simp only [insertLoop] at h
    rcases hc : insertCol t values c with e | v2
    · rw [hc] at h
      exact absurd h (by simp)
    · rw [hc] at h
      simp only at h
      rw [ih h]
      simp

theorem wf_insert (t : Table) (values : List (String × Value)) (h : TableWF t) :
    TableWF (t.insert values).1 := by
  obtain ⟨hc, hk, ⟨hidN, hidLt⟩, ⟨hxN, hxC⟩, hki, hio⟩ := h
  rcases hloop : insertLoop t values t.columns [] with e | out
  · have heq : (t.insert values).1 = t := by
      unfold Table.insert
      rw [hloop]
    rw [heq]
    exact ⟨hc, hk, ⟨hidN, hidLt⟩, ⟨hxN, hxC⟩, hki, hio⟩
  · have heq : (t.insert values).1 =
        { t with rows := t.rows ++ [⟨t.next_row_id, out⟩],
                 next_row_id := t.next_row_id + 1,
                 indexes := t.indexes.map (fun p =>
                   match alookup out p.1 with
                   | some v => (p.1, Index.add p.2 v t.next_row_id)
                   | none => p) } := by
      unfold Table.insert
      rw [hloop]
    rw [heq]
    have hout : out.map Prod.fst = t.colNames := by
      have := insertLoop_keys hloop
      simpa [Table.colNames] using this
    have hfresh : ∀ r ∈ t.rows, r.id ≠ t.next_row_id :=
      fun r hr => Nat.ne_of_lt (hidLt r hr)
    have hidxkeys : (t.indexes.map (fun p =>
        match alookup out p.1 with
        | some v => (p.1, Index.add p.2 v t.next_row_id)
        | none => p)).map Prod.fst = t.indexes.map Prod.fst := by
      rw [List.map_map]
      refine List.map_congr_left ?_
      intro p _
      simp only [Function.comp_apply]
      rcases alookup out p.1 with _ | v <;> rfl
    refine ⟨hc, ?_, ⟨?_, ?_⟩, ⟨?_, ?_⟩, ?_, ?_⟩
    · intro r hr
      rcases List.mem_append.mp hr with h1 | h1
      · exact hk r h1
      · simp only [List.mem_singleton] at h1
        subst h1
        exact hout
    · simp only [List.map_append, List.map_cons, List.map_nil]
      rw [List.nodup_append]
      refine ⟨hidN, by simp, ?_⟩
      intro x hx
      obtain ⟨r, hr, hrid⟩ := List.mem_map.mp hx
      simp only [List.mem_singleton]
      intro hy
      subst hy
      exact absurd hrid (hfresh r hr)
    · intro r hr
      rcases List.mem_append.mp hr with h1 | h1
      · exact Nat.lt_succ_of_lt (hidLt r h1)
      · simp only [List.mem_singleton] at h1
        subst h1
        exact Nat.lt_succ_self _
    · rw [hidxkeys]
      exact hxN
    · intro p hp
      obtain ⟨q, hq, hqeq⟩ := List.mem_map.mp hp
      have : p.1 = q.1 := by
        rw [← hqeq]
        rcases alookup out q.1 with _ | v <;> rfl
      rw [this]
      exact hxC q hq
    · intro c hcm hcu
      rw [hidxkeys]
      exact hki c hcm hcu
    · intro p hp
      obtain ⟨q, hq, hqeq⟩ := List.mem_map.mp hp
      have hq1 : q.1 ∈ out.map Prod.fst := by
        rw [hout]
        exact hxC q hq
      rcases hl : alookup out q.1 with _ | v
      · have hs := alookup_isSome_of_mem_keys hq1
        rw [hl] at hs
        exact absurd hs (by simp)
      · rw [hl] at hqeq
        have hval : ((SRow.mk t.next_row_id out).get q.1).getD Value.null = v := by
          simp [SRow.get, hl]
        have hstep := IdxInv.insert_row (hio q hq) (SRow.mk t.next_row_id out)
          (fun r hr => hfresh r hr)
        rw [hval] at hstep
        rw [← hqeq]
        exact hstep

theorem wf_update (t : Table) (sv : List (String × Value)) (w : Option Where)
    (hsvN : (sv.map Prod.fst).Nodup) (h : TableWF t) :
    TableWF (t.update sv w).1 := by
  obtain ⟨hc, hk, ⟨hidN, hidLt⟩, ⟨hxN, hxC⟩, hki, hio⟩ := h
  have hU := updateRows_wf t.columns sv w hsvN t.rows [] t.indexes hk hidN hxN hio
  obtain ⟨hA, hB, hC, hD⟩ := hU
  refine ⟨hc, hB, ⟨?_, ?_⟩, ⟨?_, ?_⟩, ?_, ?_⟩
  · show ((updateRows t.columns sv w t.rows t.indexes).1.map SRow.id).Nodup
    rw [hA]
    exact hidN
  · intro r hr
    show r.id < t.next_row_id
    have h1 : r.id ∈ (updateRows t.columns sv w t.rows t.indexes).1.map SRow.id :=
      List.mem_map.mpr ⟨r, hr, rfl⟩
    rw [hA] at h1
    obtain ⟨r0, hr0, hr0id⟩ := List.mem_map.mp h1
    exact hr0id ▸ hidLt r0 hr0
  · show (((updateRows t.columns sv w t.rows t.indexes).2.1).map Prod.fst).Nodup
    rw [hC]
    exact hxN
  · intro p hp
    have h1 : p.1 ∈ (updateRows t.columns sv w t.rows t.indexes).2.1.map Prod.fst :=
      List.mem_map.mpr ⟨p, hp, rfl⟩
    rw [hC] at h1
    obtain ⟨q, hq, hqk⟩ := List.mem_map.mp h1
    show p.1 ∈ t.colNames
    exact hqk ▸ hxC q hq
  · intro c hc1 hc2
    show c.name ∈ (updateRows t.columns sv w t.rows t.indexes).2.1.map Prod.fst
    rw [hC]
    exact hki c hc1 hc2
  · intro p hp
    exact hD p hp

theorem deleteFlags_fst {w : Option Where} :
    ∀ {rows : List SRow} {flagged : List (SRow × Bool)},
    deleteFlags w rows = .ok flagged → flagged.map Prod.fst = rows := by
  intro rows
  induction rows with
  | nil =>
    intro flagged h
    simp only [deleteFlags, Except.ok.injEq] at h
    subst h
    rfl
  | cons r rest ih =>
    intro flagged h
    simp only [deleteFlags] at h
    obtain ⟨b, hb, h2⟩ := except_bind_ok h
    obtain ⟨rest1, hrest, h3⟩ := except_bind_ok h2
    simp only [Except.ok.injEq] at h3
    subst h3
    simp only [List.map_cons]
    rw [ih hrest]

/-- The deletion pass preserves the index registry's keys and the row/index
consistency invariant, and returns a subsequence of the surviving rows. -/
theorem deleteGo_wf (cols : List Column) :
    ∀ (flagged : List (SRow × Bool)) (ctx : List SRow) (idxs : List (String × Index)),
    (∀ pr ∈ flagged, pr.1.vals.map Prod.fst = cols.map Column.name) →
    ((ctx ++ flagged.map Prod.fst).map SRow.id).Nodup →
    (∀ p ∈ idxs, p.1 ∈ cols.map Column.name) →
    (∀ p ∈ idxs, IdxInv p.1 (ctx ++ flagged.map Prod.fst) p.2) →
    ((deleteGo flagged idxs).1.Sublist (flagged.map Prod.fst)) ∧
    ((deleteGo flagged idxs).2.1.map Prod.fst = idxs.map Prod.fst) ∧
    (∀ p ∈ (deleteGo flagged idxs).2.1,
      IdxInv p.1 (ctx ++ (deleteGo flagged idxs).1) p.2) := by
  intro flagged
  induction flagged with
  | nil =>
    intro ctx idxs hkeys hN hkm hio
    exact ⟨List.Sublist.refl _, rfl, fun p hp => hio p hp⟩
  | cons pr rest ih =>
    intro ctx idxs hkeys hN hkm hio
    obtain ⟨r, b⟩ := pr
    cases b with
    | false =>
      have heq : deleteGo ((r, false) :: rest) idxs =
          (r :: (deleteGo rest idxs).1, (deleteGo rest idxs).2.1,
           (deleteGo rest idxs).2.2) := by
        simp only [deleteGo]
      have hIH := ih (ctx ++ [r]) idxs
        (fun q hq => hkeys q (List.mem_cons_of_mem _ hq))
        (by rw [List.append_assoc]; exact hN)
        hkm
        (by
          intro p hp
          refine IdxInv.mono (fun x => ?_) (hio p hp)
          simp)
      obtain ⟨hS, hK, hI⟩ := hIH
      rw [heq]
      refine ⟨List.cons_sublist_cons.mpr hS, hK, ?_⟩
      intro p hp
      refine IdxInv.mono (fun x => ?_) (hI p hp)
      simp
    | true =>
      have hrkeys : r.vals.map Prod.fst = cols.map Column.name :=
        hkeys (r, true) (List.mem_cons_self _ _)
      have hids : ∀ x ∈ ctx ++ rest.map Prod.fst, x.id ≠ r.id :=
        nodup_mid hN
      have hi1keys : (idxs.map (fun p =>
          match alookup r.vals p.1 with
          | some v => (p.1, p.2.remove v r.id)
          | none => p)).map Prod.fst = idxs.map Prod.fst := by
        rw [List.map_map]
        refine List.map_congr_left ?_
        intro p _
        simp only [Function.comp_apply]
        rcases alookup r.vals p.1 with _ | v <;> rfl
      have hi1inv : ∀ p ∈ idxs.map (fun p =>
          match alookup r.vals p.1 with
          | some v => (p.1, p.2.remove v r.id)
          | none => p), IdxInv p.1 (ctx ++ rest.map Prod.fst) p.2 := by
        intro p hp
        obtain ⟨q, hq, hqeq⟩ := List.mem_map.mp hp
        have hq1 : q.1 ∈ r.vals.map Prod.fst := by
          rw [hrkeys]
          exact hkm q hq
        rcases hl : alookup r.vals q.1 with _ | v
        · have hs := alookup_isSome_of_mem_keys hq1
          rw [hl] at hs
          exact absurd hs (by simp)
        · rw [hl] at hqeq
          have hval : ((r.get q.1).getD Value.null) = v := by
            simp [SRow.get, hl]
          have hstep := @IdxInv.delete_row q.1 ctx (rest.map Prod.fst) q.2
            r (hio q hq) hids
          rw [hval] at hstep
          rw [← hqeq]
          exact hstep
      have heq : deleteGo ((r, true) :: rest) idxs =
          ((deleteGo rest (idxs.map (fun p =>
              match alookup r.vals p.1 with
              | some v => (p.1, p.2.remove v r.id)
              | none => p))).1,
           (deleteGo rest (idxs.map (fun p =>
              match alookup r.vals p.1 with
              | some v => (p.1, p.2.remove v r.id)
              | none => p))).2.1,
           (deleteGo rest (idxs.map (fun p =>
              match alookup r.vals p.1 with
              | some v => (p.1, p.2.remove v r.id)
              | none => p))).2.2 + 1) := by
        simp only [deleteGo]
      have hIH := ih ctx (idxs.map (fun p =>
          match alookup r.vals p.1 with
          | some v => (p.1, p.2.remove v r.id)
          | none => p))
        (fun q hq => hkeys q (List.mem_cons_of_mem _ hq))
        (by
          refine List.Nodup.sublist ?_ hN
          exact List.Sublist.map SRow.id
            ((List.Sublist.cons r (List.Sublist.refl _)).append_left ctx))
        (by
          intro p hp
          obtain ⟨q, hq, hqeq⟩ := List.mem_map.mp hp
          have : p.1 = q.1 := by
            rw [← hqeq]
            rcases alookup r.vals q.1 with _ | v <;> rfl
          rw [this]
          exact hkm q hq)
        hi1inv
      obtain ⟨hS, hK, hI⟩ := hIH
      rw [heq]
      exact ⟨List.Sublist.cons r hS, hK.trans hi1keys, fun p hp => hI p hp⟩

theorem wf_delete (t : Table) (w : Option Where) (t1 : Table) (n : Nat)
    (h : TableWF t) (hdel : t.delete w = .ok (t1, n)) : TableWF t1 := by
  obtain ⟨hc, hk, ⟨hidN, hidLt⟩, ⟨hxN, hxC⟩, hki, hio⟩ := h
  simp only [Table.delete] at hdel
  obtain ⟨flagged, hf, h2⟩ := except_bind_ok hdel
  have hfst := deleteFlags_fst hf
  have h2a : (Except.ok
      ({ t with rows := (deleteGo flagged t.indexes).1,
                indexes := (deleteGo flagged t.indexes).2.1 },
       (deleteGo flagged t.indexes).2.2) :
      Except String (Table × Nat)) = .ok (t1, n) := h2
  simp only [Except.ok.injEq, Prod.mk.injEq] at h2a
  obtain ⟨ht1, _⟩ := h2a
  have hG := deleteGo_wf t.columns flagged [] t.indexes
    (fun pr hpr => hk pr.1 (hfst ▸ List.mem_map.mpr ⟨pr, hpr, rfl⟩))
    (by
      show ((flagged.map Prod.fst).map SRow.id).Nodup
      rw [hfst]
      exact hidN)
    hxC
    (by
      intro p hp
      show IdxInv p.1 ([] ++ flagged.map Prod.fst) p.2
      rw [List.nil_append, hfst]
      exact hio p hp)
  obtain ⟨hS, hK, hI⟩ := hG
  rw [hfst] at hS
  rw [← ht1]
  refine ⟨hc, ?_, ⟨?_, ?_⟩, ⟨?_, ?_⟩, ?_, ?_⟩
  · intro r hr
    exact hk r (hS.subset hr)
  · exact hidN.sublist (hS.map SRow.id)
  · intro r hr
    exact hidLt r (hS.subset hr)
  · show (((deleteGo flagged t.indexes).2.1).map Prod.fst).Nodup
    rw [hK]
    exact hxN
  · intro p hp
    have h1 : p.1 ∈ (deleteGo flagged t.indexes).2.1.map Prod.fst :=
      List.mem_map.mpr ⟨p, hp, rfl⟩
    rw [hK] at h1
    obtain ⟨q, hq, hqk⟩ := List.mem_map.mp h1
    show p.1 ∈ t.colNames
    exact hqk ▸ hxC q hq
  · intro c hc1 hc2
    show c.name ∈ (deleteGo flagged t.indexes).2.1.map Prod.fst
    rw [hK]
    exact hki c hc1 hc2
  · intro p hp
    exact hI p hp

theorem idxinv_nil (cn : String) : IdxInv cn [] [] :=
  ⟨List.Pairwise.nil, by simp, by simp, by simp⟩

/-- Replaying rows with pairwise-distinct identities into an index that is
consistent with a prefix keeps consistency (the index-build loop of
`Table.create_index`). -/
theorem foldl_add_inv (cn : String) :
    ∀ (rows ctx : List SRow) (idx : Index),
    ((ctx ++ rows).map SRow.id).Nodup →
    IdxInv cn ctx idx →
    IdxInv cn (ctx ++ rows)
      (rows.foldl (fun acc r => Index.add acc ((r.get cn).getD .null) r.id) idx) := by
  intro rows
  induction rows with
  | nil =>
    intro ctx idx hN h
    simp only [List.foldl_nil]
    refine IdxInv.mono (fun x => ?_) h
    simp
  | cons r rest ih =>
    intro ctx idx hN h
    simp only [List.foldl_cons]
    have hfresh : ∀ x ∈ ctx, x.id ≠ r.id := by
      intro x hx
      exact nodup_mid hN x (List.mem_append_left _ hx)
    have h1 : IdxInv cn (ctx ++ [r]) (Index.add idx ((r.get cn).getD .null) r.id) :=
      IdxInv.insert_row h r hfresh
    have h2 := ih (ctx ++ [r]) _ (by rw [List.append_assoc]; exact hN) h1
    refine IdxInv.mono (fun x => ?_) h2
    simp

theorem wf_create_index (t : Table) (cn : String) (h : TableWF t) :
    TableWF (t.create_index cn).1 := by
  obtain ⟨hc, hk, ⟨hidN, hidLt⟩, ⟨hxN, hxC⟩, hki, hio⟩ := h
  unfold Table.create_index
  by_cases h1 : cn ∉ t.colNames
  · rw [if_pos h1]
    exact ⟨hc, hk, ⟨hidN, hidLt⟩, ⟨hxN, hxC⟩, hki, hio⟩
  · rw [if_neg h1]
    by_cases h2 : (alookup t.indexes cn).isSome
    · rw [if_pos h2]
      exact ⟨hc, hk, ⟨hidN, hidLt⟩, ⟨hxN, hxC⟩, hki, hio⟩
    · rw [if_neg h2]
      have hnotmem : cn ∉ t.indexes.map Prod.fst := fun hm =>
        h2 (alookup_isSome_of_mem_keys hm)
      refine ⟨hc, hk, ⟨hidN, hidLt⟩, ⟨?_, ?_⟩, ?_, ?_⟩
      · show ((t.indexes ++ [(cn, t.rows.foldl (fun (idx : Index) r =>
            Index.add idx ((r.get cn).getD .null) r.id) ([] : Index))]).map
            Prod.fst).Nodup
        simp only [List.map_append, List.map_cons, List.map_nil]
        rw [List.nodup_append]
        refine ⟨hxN, List.nodup_singleton _, ?_⟩
        intro a ha hb
        simp only [List.mem_singleton] at hb
        subst hb
        exact hnotmem ha
      · intro p hp
        rcases List.mem_append.mp hp with h3 | h3
        · exact hxC p h3
        · simp only [List.mem_singleton] at h3
          subst h3
          exact not_not.mp h1
      · intro c hc1 hc2
        show c.name ∈ (t.indexes ++ [(cn, t.rows.foldl (fun (idx : Index) r =>
            Index.add idx ((r.get cn).getD .null) r.id) ([] : Index))]).map Prod.fst
        rw [List.map_append]
        exact List.mem_append_left _ (hki c hc1 hc2)
      · intro p hp
        rcases List.mem_append.mp hp with h3 | h3
        · exact hio p h3
        · simp only [List.mem_singleton] at h3
          subst h3
          have := foldl_add_inv cn t.rows [] ([] : Index) hidN (idxinv_nil cn)
          exact this

/-- A mutating table operation as dispatched by the engine (INSERT, UPDATE,
DELETE, CREATE INDEX). -/
inductive TableOp where
  | ins (values : List (String × Value))
  | upd (sv : List (String × Value)) (w : Option Where)
  | del (w : Option Where)
  | cidx (cn : String)

/-- Applying one operation to a table; when `delete` raises a comparison
`TypeError` the source leaves the table untouched. -/
def applyOp (t : Table) : TableOp → Table
  | .ins values => (t.insert values).1
  | .upd sv w => (t.update sv w).1
  | .del w =>
    match t.delete w with
    | .ok p => p.1
    | .error _ => t
  | .cidx cn => (t.create_index cn).1

/-- The side condition an operation carries in the engine: a SET clause is a
parsed assignment dict, so its keys are distinct. -/
def opWF : TableOp → Prop
  | .upd sv _ => (sv.map Prod.fst).Nodup
  | _ => True

def applyOps (t : Table) (ops : List TableOp) : Table :=
  ops.foldl applyOp t

theorem wf_applyOp (t : Table) (op : TableOp) (h : TableWF t) (hop : opWF op) :
    TableWF (applyOp t op) := by
  cases op with
  | ins values => exact wf_insert t values h
  | upd sv w => exact wf_update t sv w hop h
  | del w =>
    simp only [applyOp]
    rcases hd : t.delete w with e | p
    · exact h
    · exact wf_delete t w p.1 p.2 h hd
  | cidx cn => exact wf_create_index t cn h

theorem wf_applyOps (t : Table) (ops : List TableOp) (h : TableWF t)
    (hops : ∀ op ∈ ops, opWF op) : TableWF (applyOps t ops) := by
  induction ops generalizing t with
  | nil => exact h
  | cons op rest ih =>
    exact ih (applyOp t op) (wf_applyOp t op h (hops op (List.mem_cons_self _ _)))
      (fun o ho => hops o (List.mem_cons_of_mem _ ho))

/-- C4: for every table freshly created over a duplicate-free schema and every
sequence of insert/update/delete (and index-creation) operations, each indexed
column's index stays exactly consistent with the current row store: `lookup v`
returns exactly the identities of the rows currently holding a value
`==`-equal to `v` in that column — the index is rewritten in the same step as
every row mutation. -/
theorem c4_index_consistency (nm : String) (cols : List Column)
    (ops : List TableOp) (hnd : (cols.map Column.name).Nodup)
    (hops : ∀ op ∈ ops, opWF op)
    (cn : String) (idx : Index)
    (hidx : alookup (applyOps (Table.new nm cols) ops).indexes cn = some idx)
    (v : Value) (rid : Nat) :
    rid ∈ Index.lookup idx v ↔
      ∃ r ∈ (applyOps (Table.new nm cols) ops).rows, r.id = rid ∧
        pyEq ((r.get cn).getD .null) v = true := by
  have hwf := wf_applyOps (Table.new nm cols) ops (wf_new nm cols hnd) hops
  obtain ⟨_, _, _, _, _, hio⟩ := hwf
  exact IdxInv.lookup_iff (hio (cn, idx) (alookup_mem hidx)) v rid

theorem c4_index_consistency_witness :
    0 ∈ Index.lookup [(Value.int 3, [0])] (Value.int 3) ↔
      ∃ r ∈ (applyOps (Table.new "t" [⟨"id", "INT", none, true, false, true⟩])
          [TableOp.ins [("id", Value.int 1)], TableOp.ins [("id", Value.int 2)],
           TableOp.upd [("id", Value.int 3)] (some [("id", Cond.eq (Value.int 1))]),
           TableOp.del (some [("id", Cond.eq (Value.int 2))])]).rows,
        r.id = 0 ∧ pyEq ((r.get "id").getD .null) (Value.int 3) = true :=
  c4_index_consistency "t" [⟨"id", "INT", none, true, false, true⟩]
    [TableOp.ins [("id", Value.int 1)], TableOp.ins [("id", Value.int 2)],
     TableOp.upd [("id", Value.int 3)] (some [("id", Cond.eq (Value.int 1))]),
     TableOp.del (some [("id", Cond.eq (Value.int 2))])]
    (by decide)
    (by
      simp only [List.mem_cons, List.not_mem_nil, or_false]
      rintro op (rfl | rfl | rfl | rfl) <;> simp [opWF])
    "id" [(Value.int 3, [0])] (by decide) (Value.int 3) 0

/-- The candidate value `Table.insert` computes for a column before
validation: the supplied value, or the identity counter auto-assigned to an
unsupplied primary key. -/
def insertColV1 (t : Table) (values : List (String × Value)) (c : Column) : Value :=
  let v0 := (alookup values c.name).getD .null
  if c.primary_key ∧ v0 = .null then .int (t.next_row_id : Int) else v0

/-- The converted value `Table.insert` stores for a column (a `None` passes
through unconverted). -/
def insertColVal (t : Table) (values : List (String × Value)) (c : Column) : Value :=
  if insertColV1 t values c = .null then insertColV1 t values c
  else c.convert (insertColV1 t values c)

theorem insertCol_eq (t : Table) (values : List (String × Value)) (c : Column) :
    insertCol t values c =
      match c.validate (insertColV1 t values c) with
      | some e => .error e
      | none =>
        if (insertColVal t values c ≠ .null : Bool) && (c.primary_key || c.unique) &&
            (match alookup t.indexes c.name with
             | some idx => (Index.lookup idx (insertColVal t values c) ≠ [] : Bool)
             | none => false) then
          .error ("Duplicate value for " ++ c.name)
        else .ok (insertColVal t values c) := rfl

/-- A column whose candidate value fails validation, or whose converted value
is a duplicate non-NULL key value, makes `insertCol` fail. -/
theorem insertCol_err_of (t : Table) (values : List (String × Value)) (c : Column)
    (h : (∃ e, c.validate (insertColV1 t values c) = some e) ∨
         (insertColVal t values c ≠ .null ∧ (c.primary_key = true ∨ c.unique = true) ∧
          ∃ idx, alookup t.indexes c.name = some idx ∧
            Index.lookup idx (insertColVal t values c) ≠ [])) :
    ∃ e, insertCol t values c = .error e := by
  rw [insertCol_eq]
  rcases h with ⟨e, he⟩ | ⟨h1, h2, idx, h3, h4⟩
  · rw [he]
    exact ⟨e, rfl⟩
  · rcases hv : c.validate (insertColV1 t values c) with _ | e1
    · refine ⟨"Duplicate value for " ++ c.name, ?_⟩
      have hcond : ((insertColVal t values c ≠ Value.null : Bool) &&
          (c.primary_key || c.unique) &&
          (match alookup t.indexes c.name with
           | some idx => (Index.lookup idx (insertColVal t values c) ≠ [] : Bool)
           | none => false)) = true := by
        rw [h3]
        simp only [Bool.and_eq_true, decide_eq_true_eq]
        exact ⟨⟨h1, by rcases h2 with h | h <;> simp [h]⟩, h4⟩
      rw [if_pos hcond]
    · exact ⟨e1, rfl⟩

/-- If any schema column's `insertCol` fails, the whole column loop fails. -/
theorem insertLoop_err_of_col {t : Table} {values : List (String × Value)} :
    ∀ {cs : List Column} {acc : List (String × Value)},
    (∃ c ∈ cs, ∃ e, insertCol t values c = .error e) →
    ∃ e, insertLoop t values cs acc = .error e := by
  intro cs
  induction cs with
  | nil =>
    rintro acc ⟨c, hc, _⟩
    simp at hc
  | cons c rest ih =>
    rintro acc ⟨c1, hc1, e, he⟩
    rcases hc : insertCol t values c with e2 | v2
    · exact ⟨e2, by simp only [insertLoop, hc]⟩
    · rcases List.mem_cons.mp hc1 with h | h
      · subst h
        rw [hc] at he
        exact absurd he (by simp)
      · obtain ⟨e3, h3⟩ := ih ⟨c1, h, e, he⟩
        refine ⟨e3, ?_⟩
        simp only [insertLoop, hc]
        exact h3

/-- C2: any insert failure — a reported error — leaves the table record (row
store, indexes, identity counter) unchanged; a column value failing validation
rejects the insert with the state unchanged; and on a well-formed table, a
non-NULL converted value for a primary-key or unique column that a live row
already holds (so it already appears in that column's index) rejects the
insert with the state unchanged — in particular the second of two inserts
with equal non-NULL key values is rejected and the table size is unchanged. -/
theorem c2_insert_rejection (t : Table) (values : List (String × Value)) :
    (∀ e, (t.insert values).2.2 = some e → t.insert values = (t, false, some e)) ∧
    (∀ c ∈ t.columns, (∃ e, c.validate (insertColV1 t values c) = some e) →
      ∃ e2, t.insert values = (t, false, some e2)) ∧
    (TableWF t → ∀ c ∈ t.columns, (c.primary_key = true ∨ c.unique = true) →
      ∀ r ∈ t.rows, insertColVal t values c ≠ Value.null →
      pyEq ((r.get c.name).getD .null) (insertColVal t values c) = true →
      ∃ e, t.insert values = (t, false, some e)) := by
  refine ⟨?_, ?_, ?_⟩
  · intro e he
    rcases hloop : insertLoop t values t.columns [] with e1 | out
    · have heq1 : t.insert values = (t, false, some e1) := by
        simp only [Table.insert, hloop]
      rw [heq1] at he ⊢
      simp only [Option.some.injEq] at he
      rw [he]
    · have heq1 : (t.insert values).2.2 = none := by
        simp only [Table.insert, hloop]
      rw [heq1] at he
      exact absurd he (by simp)
  · intro c hc hval
    obtain ⟨e1, he1⟩ := insertCol_err_of t values c (Or.inl hval)
    obtain ⟨e2, hloop⟩ :=
      @insertLoop_err_of_col t values t.columns [] ⟨c, hc, e1, he1⟩
    exact ⟨e2, by simp only [Table.insert, hloop]⟩
  · intro hwf c hc hcu r hr hnn heq
    obtain ⟨hcnod, hk, hid, ⟨hxN, hxC⟩, hki, hio⟩ := hwf
    have hkey : c.name ∈ t.indexes.map Prod.fst := hki c hc hcu
    obtain ⟨idx, hidx⟩ := Option.isSome_iff_exists.mp (alookup_isSome_of_mem_keys hkey)
    have hinv := hio (c.name, idx) (alookup_mem hidx)
    have hmem : r.id ∈ Index.lookup idx ((r.get c.name).getD .null) := hinv.2.2.2 r hr
    have hlook : Index.lookup idx (insertColVal t values c) ≠ [] := by
      rw [← lookup_congr idx heq]
      intro hnil
      rw [hnil] at hmem
      exact List.not_mem_nil _ hmem
    obtain ⟨e1, he1⟩ := insertCol_err_of t values c (Or.inr ⟨hnn, hcu, idx, hidx, hlook⟩)
    obtain ⟨e2, hloop⟩ :=
      @insertLoop_err_of_col t values t.columns [] ⟨c, hc, e1, he1⟩
    exact ⟨e2, by simp only [Table.insert, hloop]⟩

theorem c2_insert_rejection_witness :
    ∃ e, tableC1.insert [("id", Value.int 3), ("u", Value.int 10)] =
      (tableC1, false, some e) :=
  (c2_insert_rejection tableC1 [("id", Value.int 3), ("u", Value.int 10)]).2.2
    (by unfold TableWF IdxInv; decide)
    ⟨"u", "INT", none, false, true, true⟩ (by decide) (Or.inr rfl)
    ⟨0, [("id", Value.int 1), ("u", Value.int 10)]⟩ (by decide) (by decide) (by decide)


/-- A row dict whose keys are a given duplicate-free key list, in order, is
determined by its lookups. -/
theorem row_eq_map_get :
    ∀ (d : List (String × Value)) (ks : List String), ks.Nodup →
    d.map Prod.fst = ks →
    d = ks.map (fun k => (k, (alookup d k).getD .null)) := by
  intro d
  induction d with
  | nil =>
    intro ks _ hk
    rw [← hk]
    rfl
  | cons p rest ih =>
    intro ks hnd hk
    obtain ⟨k1, v1⟩ := p
    subst hk
    simp only [List.map_cons] at hnd ⊢
    obtain ⟨hh, ht⟩ := List.nodup_cons.mp hnd
    congr 1
    · simp [alookup]
    · conv_lhs => rw [ih (rest.map Prod.fst) ht rfl]
      refine List.map_congr_left ?_
      intro k hkmem
      have hne : k1 ≠ k := fun hc => hh (hc ▸ hkmem)
      simp [alookup, hne]

theorem insertCol_validate_ok (t : Table) (values : List (String × Value)) (c : Column)
    (hval : c.validate (insertColV1 t values c) = none) :
    insertCol t values c =
      if ((insertColVal t values c ≠ .null : Bool) && (c.primary_key || c.unique) &&
          (match alookup t.indexes c.name with
           | some idx => (Index.lookup idx (insertColVal t values c) ≠ [] : Bool)
           | none => false)) = true then
        .error ("Duplicate value for " ++ c.name)
      else .ok (insertColVal t values c) := by
  rw [insertCol_eq, hval]

/-- A column holding a validated, already-converted, duplicate-free value (a
non-NULL one for a primary key) is reproduced unchanged by `insertCol`. -/
theorem insertCol_restore (t1 : Table) (r : SRow) (c : Column)
    (hval : c.validate ((r.get c.name).getD .null) = none)
    (hpk : c.primary_key = true → (r.get c.name).getD .null ≠ .null)
    (hconv : (r.get c.name).getD .null ≠ .null →
      c.convert ((r.get c.name).getD .null) = (r.get c.name).getD .null)
    (hdup : ∀ idx, alookup t1.indexes c.name = some idx →
      (r.get c.name).getD .null ≠ .null →
      Index.lookup idx ((r.get c.name).getD .null) = []) :
    insertCol t1 r.vals c = .ok ((r.get c.name).getD .null) := by
  have hv1 : insertColV1 t1 r.vals c = (r.get c.name).getD .null := by
    simp only [insertColV1]
    rw [if_neg]
    · rfl
    · rintro ⟨hpk1, hnull⟩
      exact hpk hpk1 hnull
  have hv2 : insertColVal t1 r.vals c = (r.get c.name).getD .null := by
    simp only [insertColVal]
    rw [hv1]
    by_cases hn : (r.get c.name).getD Value.null = Value.null
    · rw [if_pos hn]
    · rw [if_neg hn]
      exact hconv hn
  rw [insertCol_validate_ok t1 r.vals c (by rw [hv1]; exact hval)]
  by_cases hC : ((insertColVal t1 r.vals c ≠ Value.null : Bool) &&
      (c.primary_key || c.unique) &&
      (match alookup t1.indexes c.name with
       | some idx => (Index.lookup idx (insertColVal t1 r.vals c) ≠ [] : Bool)
       | none => false)) = true
  · exfalso
    rcases hidx : alookup t1.indexes c.name with _ | idx
    · rw [hidx] at hC
      simp at hC
    · rw [hidx] at hC
      simp only [Bool.and_eq_true, decide_eq_true_eq] at hC
      obtain ⟨⟨hnn, _⟩, hlook⟩ := hC
      rw [hv2] at hnn hlook
      exact hlook (hdup idx hidx hnn)
  · rw [if_neg hC, hv2]

theorem insertLoop_restore (t1 : Table) (r : SRow) :
    ∀ (cs : List Column) (acc : List (String × Value)),
    (∀ c ∈ cs, insertCol t1 r.vals c = .ok ((r.get c.name).getD .null)) →
    insertLoop t1 r.vals cs acc =
      .ok (acc ++ cs.map (fun c => (c.name, (r.get c.name).getD .null))) := by
  intro cs
  induction cs with
  | nil =>
    intro acc h
    simp [insertLoop]
  | cons c rest ih =>
    intro acc h
    simp only [insertLoop, h c (List.mem_cons_self _ _)]
    rw [ih (acc ++ [(c.name, (r.get c.name).getD .null)])
      (fun c2 hc2 => h c2 (List.mem_cons_of_mem _ hc2))]
    simp

/-- Inserting a row whose stored values `insertCol` reproduces appends exactly
that row's value dict, advances the counter, and keeps the index keys. -/
theorem insert_restore (t1 : Table) (r : SRow)
    (hnd : (t1.columns.map Column.name).Nodup)
    (hkeys : r.vals.map Prod.fst = t1.columns.map Column.name)
    (hcols : ∀ c ∈ t1.columns, insertCol t1 r.vals c = .ok ((r.get c.name).getD .null)) :
    (t1.insert r.vals).1.name = t1.name ∧
    (t1.insert r.vals).1.columns = t1.columns ∧
    (t1.insert r.vals).1.rows.map SRow.vals = t1.rows.map SRow.vals ++ [r.vals] ∧
    (t1.insert r.vals).1.indexes.map Prod.fst = t1.indexes.map Prod.fst := by
  have hloop := insertLoop_restore t1 r t1.columns [] hcols
  have hvals : t1.columns.map (fun c => (c.name, (r.get c.name).getD .null)) = r.vals := by
    conv_rhs => rw [row_eq_map_get r.vals (t1.columns.map Column.name) hnd hkeys]
    rw [List.map_map]
    rfl
  have heq : (t1.insert r.vals).1 =
      { t1 with rows := t1.rows ++ [⟨t1.next_row_id, r.vals⟩],
                next_row_id := t1.next_row_id + 1,
                indexes := t1.indexes.map (fun p =>
                  match alookup r.vals p.1 with
                  | some v => (p.1, p.2.add v t1.next_row_id)
                  | none => p) } := by
    unfold Table.insert
    rw [hloop, show ([] : List (String × Value)) ++
        t1.columns.map (fun c => (c.name, (r.get c.name).getD .null)) =
        r.vals from by rw [List.nil_append, hvals]]
  rw [heq]
  refine ⟨rfl, rfl, by simp, ?_⟩
  rw [List.map_map]
  refine List.map_congr_left ?_
  intro p _
  simp only [Function.comp_apply]
  rcases alookup r.vals p.1 with _ | v <;> rfl

theorem wf_setCounter (t : Table) (n : Nat) (h : TableWF t)
    (hn : ∀ r ∈ t.rows, r.id < n) :
    TableWF { t with next_row_id := n } := by
  obtain ⟨a, b, ⟨c1, _⟩, d, e, f⟩ := h
  exact ⟨a, b, ⟨c1, hn⟩, d, e, f⟩

/-- The row-restore loop of `Table.from_dict`: re-inserting rows that hold
validated, converted, pairwise-distinct key values reproduces exactly those
rows (same value dicts, same order) and keeps the index keys. -/
theorem restore_fold (cols : List Column) (hnd : (cols.map Column.name).Nodup) :
    ∀ (rows pre : List SRow) (t1 : Table),
    t1.columns = cols →
    TableWF t1 →
    t1.rows.map SRow.vals = pre.map SRow.vals →
    (∀ cn ∈ t1.indexes.map Prod.fst, ∃ c ∈ cols, c.name = cn ∧
      (c.primary_key = true ∨ c.unique = true)) →
    (∀ r ∈ rows, r.vals.map Prod.fst = cols.map Column.name) →
    (∀ r ∈ rows, ∀ c ∈ cols,
      c.validate ((r.get c.name).getD .null) = none ∧
      (c.primary_key = true → (r.get c.name).getD .null ≠ .null) ∧
      ((r.get c.name).getD .null ≠ .null →
        c.convert ((r.get c.name).getD .null) = (r.get c.name).getD .null)) →
    (∀ c ∈ cols, (c.primary_key = true ∨ c.unique = true) →
      (pre ++ rows).Pairwise (fun r1 r2 =>
        (r1.get c.name).getD .null ≠ .null → (r2.get c.name).getD .null ≠ .null →
        pyEq ((r1.get c.name).getD .null) ((r2.get c.name).getD .null) = false)) →
    ((rows.map SRow.vals).foldl (fun tb rv => (tb.insert rv).1) t1).name = t1.name ∧
    ((rows.map SRow.vals).foldl (fun tb rv => (tb.insert rv).1) t1).columns = cols ∧
    ((rows.map SRow.vals).foldl (fun tb rv => (tb.insert rv).1) t1).rows.map SRow.vals =
      pre.map SRow.vals ++ rows.map SRow.vals ∧
    ((rows.map SRow.vals).foldl (fun tb rv => (tb.insert rv).1) t1).indexes.map
      Prod.fst = t1.indexes.map Prod.fst ∧
    TableWF ((rows.map SRow.vals).foldl (fun tb rv => (tb.insert rv).1) t1) := by
  intro rows
  induction rows with
  | nil =>
    intro pre t1 ht1cols hwf1 hrowsEq hxK hrkeys hprops hpairs
    exact ⟨rfl, ht1cols, by simpa using hrowsEq, rfl, hwf1⟩
  | cons r rest ih =>
    intro pre t1 ht1cols hwf1 hrowsEq hxK hrkeys hprops hpairs
    obtain ⟨hnd1, hk1, ⟨hidN1, hidLt1⟩, ⟨hxN1, hxC1⟩, hki1, hio1⟩ := hwf1
    have hcols : ∀ c ∈ t1.columns, insertCol t1 r.vals c =
        .ok ((r.get c.name).getD .null) := by
      intro c hc
      have hc2 : c ∈ cols := ht1cols ▸ hc
      obtain ⟨hval, hpk, hconv⟩ := hprops r (List.mem_cons_self _ _) c hc2
      refine insertCol_restore t1 r c hval hpk hconv ?_
      intro idx hidx hnn
      by_contra hne
      obtain ⟨rid, hrid⟩ := List.exists_mem_of_ne_nil _ hne
      have hinv : IdxInv c.name t1.rows idx :=
        hio1 (c.name, idx) (alookup_mem hidx)
      obtain ⟨r0, hr0, _, hpy⟩ := (IdxInv.lookup_iff hinv _ rid).mp hrid
      have hv0 : r0.vals ∈ pre.map SRow.vals := by
        rw [← hrowsEq]
        exact List.mem_map.mpr ⟨r0, hr0, rfl⟩
      obtain ⟨ri, hri, hriv⟩ := List.mem_map.mp hv0
      obtain ⟨c2, hc2m, hc2n, hc2u⟩ := hxK c.name
        (List.mem_map.mpr ⟨(c.name, idx), alookup_mem hidx, rfl⟩)
      have hrel := (List.pairwise_append.mp (hpairs c2 hc2m hc2u)).2.2 ri hri r
        (List.mem_cons_self _ _)
      rw [hc2n] at hrel
      have hr0get : r0.get c.name = ri.get c.name := by
        unfold SRow.get
        rw [hriv]
      rw [hr0get] at hpy
      by_cases hrin : (ri.get c.name).getD Value.null = Value.null
      · rw [hrin] at hpy
        exact hnn (pyEq_null_left.mp hpy)
      · rw [hrel hrin hnn] at hpy
        exact Bool.false_ne_true hpy
    obtain ⟨hn1, hc1, hr1, hi1⟩ := insert_restore t1 r
      (by rw [ht1cols]; exact hnd)
      (by rw [ht1cols]; exact hrkeys r (List.mem_cons_self _ _))
      hcols
    have hwf2 : TableWF (t1.insert r.vals).1 :=
      wf_insert t1 r.vals ⟨hnd1, hk1, ⟨hidN1, hidLt1⟩, ⟨hxN1, hxC1⟩, hki1, hio1⟩
    have hIH := ih (pre ++ [r]) ((t1.insert r.vals).1)
      (hc1.trans ht1cols)
      hwf2
      (by rw [hr1, hrowsEq]; simp)
      (fun cn hcn => hxK cn (hi1 ▸ hcn))
      (fun r2 hr2 => hrkeys r2 (List.mem_cons_of_mem _ hr2))
      (fun r2 hr2 => hprops r2 (List.mem_cons_of_mem _ hr2))
      (by
        intro c hc hcu
        have := hpairs c hc hcu
        rw [List.append_assoc]
        exact this)
    obtain ⟨g1, g2, g3, g4, g5⟩ := hIH
    simp only [List.map_cons, List.foldl_cons]
    refine ⟨g1.trans hn1, g2, ?_, g4.trans hi1, g5⟩
    rw [g3]
    simp

/-- The index-restore loop of `Table.from_dict`: re-creating the saved
indexed columns touches neither name, columns nor rows, and the resulting
index keys are the previous keys together with the processed column names. -/
theorem createIdx_fold :
    ∀ (cns : List String) (t2 : Table),
    TableWF t2 →
    (∀ cn ∈ cns, cn ∈ t2.colNames) →
    ((cns.foldl (fun tb cn =>
        if (alookup tb.indexes cn).isSome then tb else (tb.create_index cn).1)
        t2).name = t2.name ∧
     (cns.foldl (fun tb cn =>
        if (alookup tb.indexes cn).isSome then tb else (tb.create_index cn).1)
        t2).columns = t2.columns ∧
     (cns.foldl (fun tb cn =>
        if (alookup tb.indexes cn).isSome then tb else (tb.create_index cn).1)
        t2).rows = t2.rows ∧
     TableWF (cns.foldl (fun tb cn =>
        if (alookup tb.indexes cn).isSome then tb else (tb.create_index cn).1) t2) ∧
     ∀ cn2, cn2 ∈ (cns.foldl (fun tb cn =>
        if (alookup tb.indexes cn).isSome then tb else (tb.create_index cn).1)
        t2).indexes.map Prod.fst ↔
       cn2 ∈ t2.indexes.map Prod.fst ∨ cn2 ∈ cns) := by
  intro cns
  induction cns with
  | nil =>
    intro t2 hwf hcn
    exact ⟨rfl, rfl, rfl, hwf, fun cn2 => by simp⟩
  | cons cn rest ih =>
    intro t2 hwf hcn
    simp only [List.foldl_cons]
    by_cases hs : (alookup t2.indexes cn).isSome = true
    · rw [if_pos hs]
      have hmem : cn ∈ t2.indexes.map Prod.fst := by
        obtain ⟨idx, hidx⟩ := Option.isSome_iff_exists.mp hs
        exact List.mem_map.mpr ⟨(cn, idx), alookup_mem hidx, rfl⟩
      obtain ⟨h1, h2, h3, h4, h5⟩ := ih t2 hwf
        (fun c hc => hcn c (List.mem_cons_of_mem _ hc))
      refine ⟨h1, h2, h3, h4, ?_⟩
      intro cn2
      rw [h5 cn2]
      constructor
      · rintro (h | h)
        · exact Or.inl h
        · exact Or.inr (List.mem_cons_of_mem _ h)
      · rintro (h | h)
        · exact Or.inl h
        · rcases List.mem_cons.mp h with h | h
          · subst h
            exact Or.inl hmem
          · exact Or.inr h
    · rw [if_neg hs]
      have hcm : cn ∈ t2.colNames := hcn cn (List.mem_cons_self _ _)
      have hci : (t2.create_index cn).1 =
          { t2 with indexes := t2.indexes ++ [(cn, t2.rows.foldl (fun (idx : Index) r =>
              Index.add idx ((r.get cn).getD .null) r.id) ([] : Index))] } := by
        unfold Table.create_index
        rw [if_neg (not_not.mpr hcm), if_neg hs]
      have hwf3 : TableWF (t2.create_index cn).1 := wf_create_index t2 cn hwf
      obtain ⟨h1, h2, h3, h4, h5⟩ := ih (t2.create_index cn).1 hwf3
        (fun c hc => by
          rw [hci]
          exact hcn c (List.mem_cons_of_mem _ hc))
      refine ⟨?_, ?_, ?_, h4, ?_⟩
      · rw [h1, hci]
      · rw [h2, hci]
      · rw [h3, hci]
      · intro cn2
        rw [h5 cn2, hci]
        show cn2 ∈ (t2.indexes ++ [(cn, t2.rows.foldl (fun (idx : Index) r =>
            Index.add idx ((r.get cn).getD .null) r.id) ([] : Index))]).map Prod.fst ∨
            cn2 ∈ rest ↔ cn2 ∈ t2.indexes.map Prod.fst ∨ cn2 ∈ cn :: rest
        simp only [List.map_append, List.map_cons, List.map_nil, List.mem_append,
          List.mem_singleton, List.mem_cons, List.not_mem_nil, or_false]
        tauto

/-- A table state the snapshot loader restores faithfully: well-formed, every
row holds validated, already-converted values with a non-NULL primary-key
value, and every primary-key/unique column holds pairwise `==`-distinct
non-NULL values. -/
def RestorableTable (t : Table) : Prop :=
  TableWF t ∧
  (∀ r ∈ t.rows, ∀ c ∈ t.columns,
    c.validate ((r.get c.name).getD .null) = none ∧
    (c.primary_key = true → (r.get c.name).getD .null ≠ .null) ∧
    ((r.get c.name).getD .null ≠ .null →
      c.convert ((r.get c.name).getD .null) = (r.get c.name).getD .null)) ∧
  (∀ c ∈ t.columns, (c.primary_key = true ∨ c.unique = true) →
    t.rows.Pairwise (fun r1 r2 =>
      (r1.get c.name).getD .null ≠ .null → (r2.get c.name).getD .null ≠ .null →
      pyEq ((r1.get c.name).getD .null) ((r2.get c.name).getD .null) = false))

/-- Round-tripping one restorable table through its snapshot record recovers
its name, columns, rows (same value dicts in the same order), and indexed
column-name set. -/
theorem from_to_dict (t : Table) (h : RestorableTable t) :
    (Table.from_dict t.to_dict).name = t.name ∧
    (Table.from_dict t.to_dict).columns = t.columns ∧
    (Table.from_dict t.to_dict).rows.map SRow.vals = t.rows.map SRow.vals ∧
    (∀ cn, cn ∈ (Table.from_dict t.to_dict).indexes.map Prod.fst ↔
      cn ∈ t.indexes.map Prod.fst) := by
  obtain ⟨hwf, hprops, hpairs⟩ := h
  obtain ⟨hnd, hk, ⟨hidN, hidLt⟩, ⟨hxN, hxC⟩, hki, hio⟩ := hwf
  have hfd : Table.from_dict t.to_dict =
      (t.indexes.map Prod.fst).foldl (fun tb cn =>
        if (alookup tb.indexes cn).isSome then tb else (tb.create_index cn).1)
        ((t.rows.map SRow.vals).foldl (fun tb rv => (tb.insert rv).1)
          { Table.new t.name t.columns with next_row_id := t.next_row_id }) := rfl
  have hwf1 : TableWF { Table.new t.name t.columns with next_row_id := t.next_row_id } := by
    refine wf_setCounter (Table.new t.name t.columns) t.next_row_id
      (wf_new t.name t.columns hnd) ?_
    intro r hr
    simp [Table.new] at hr
  have hxK : ∀ cn ∈ ({ Table.new t.name t.columns with
      next_row_id := t.next_row_id } : Table).indexes.map Prod.fst,
      ∃ c ∈ t.columns, c.name = cn ∧ (c.primary_key = true ∨ c.unique = true) := by
    intro cn hcn
    obtain ⟨p, hp, hpe⟩ := List.mem_map.mp hcn
    obtain ⟨c, hcf, hce⟩ := List.mem_map.mp hp
    refine ⟨c, List.mem_of_mem_filter hcf, ?_, ?_⟩
    · rw [← hpe, ← hce]
    · have h2 := List.of_mem_filter hcf
      simpa using h2
  have hF := restore_fold t.columns hnd t.rows []
    { Table.new t.name t.columns with next_row_id := t.next_row_id }
    rfl hwf1 rfl hxK hk hprops hpairs
  obtain ⟨f1, f2, f3, f4, f5⟩ := hF
  have hG := createIdx_fold (t.indexes.map Prod.fst)
    ((t.rows.map SRow.vals).foldl (fun tb rv => (tb.insert rv).1)
      { Table.new t.name t.columns with next_row_id := t.next_row_id })
    f5
    (by
      intro cn hcn
      show cn ∈ Table.colNames _
      unfold Table.colNames
      rw [f2]
      obtain ⟨p, hp, hpe⟩ := List.mem_map.mp hcn
      rw [← hpe]
      exact hxC p hp)
  obtain ⟨g1, g2, g3, g4, g5⟩ := hG
  refine ⟨?_, ?_, ?_, ?_⟩
  · rw [hfd]
    exact g1.trans f1
  · rw [hfd]
    exact g2.trans f2
  · rw [hfd, g3]
    exact f3
  · intro cn
    rw [hfd, g5 cn, f4]
    constructor
    · rintro (h | h)
      · obtain ⟨c, hcm, hcn2, hcu⟩ := hxK cn h
        rw [← hcn2]
        exact hki c hcm hcu
      · exact h
    · intro h
      exact Or.inr h

theorem forall2_map_self {α β : Type} (R : β → α → Prop) (g : α → β) (l : List α)
    (h : ∀ a ∈ l, R (g a) a) : List.Forall₂ R (l.map g) l := by
  induction l with
  | nil => exact List.Forall₂.nil
  | cons a rest ih =>
    exact List.Forall₂.cons (h a (List.mem_cons_self _ _))
      (ih fun x hx => h x (List.mem_cons_of_mem _ hx))

/-- C7 (amended): for every database whose tables are restorable — rows hold
validated, already-converted values, primary keys are non-NULL, and each
primary-key/unique column holds pairwise `==`-distinct non-NULL values —
saving a snapshot and loading it into a fresh empty database yields an
equivalent table set: the same database name, the same table names in order,
and per table the same name, the same column definitions, the same rows (same
value dicts, even in the same order), and the same set of indexed column
names. -/
theorem c7_amended_roundtrip (db : Database)
    (h : ∀ p ∈ db.tables, RestorableTable p.2) :
    (Database.loadDict (Database.toDict db)).name = db.name ∧
    (Database.loadDict (Database.toDict db)).tables.map Prod.fst =
      db.tables.map Prod.fst ∧
    List.Forall₂ (fun q p : String × Table =>
      q.1 = p.1 ∧ q.2.name = p.2.name ∧ q.2.columns = p.2.columns ∧
      q.2.rows.map SRow.vals = p.2.rows.map SRow.vals ∧
      (∀ cn, cn ∈ q.2.indexes.map Prod.fst ↔ cn ∈ p.2.indexes.map Prod.fst))
      (Database.loadDict (Database.toDict db)).tables db.tables := by
  have htab : (Database.loadDict (Database.toDict db)).tables =
      db.tables.map (fun p => (p.1, Table.from_dict p.2.to_dict)) := by
    simp only [Database.loadDict, Database.toDict, List.map_map]
    rfl
  refine ⟨rfl, ?_, ?_⟩
  · rw [htab, List.map_map]
    rfl
  · rw [htab]
    refine forall2_map_self _ _ _ ?_
    intro p hp
    obtain ⟨h1, h2, h3, h4⟩ := from_to_dict p.2 (h p hp)
    exact ⟨rfl, h1, h2, h3, h4⟩

theorem c7_amended_roundtrip_witness :
    (Database.loadDict (Database.toDict dbC3)).name = dbC3.name ∧
    (Database.loadDict (Database.toDict dbC3)).tables.map Prod.fst =
      dbC3.tables.map Prod.fst ∧
    List.Forall₂ (fun q p : String × Table =>
      q.1 = p.1 ∧ q.2.name = p.2.name ∧ q.2.columns = p.2.columns ∧
      q.2.rows.map SRow.vals = p.2.rows.map SRow.vals ∧
      (∀ cn, cn ∈ q.2.indexes.map Prod.fst ↔ cn ∈ p.2.indexes.map Prod.fst))
      (Database.loadDict (Database.toDict dbC3)).tables dbC3.tables :=
  c7_amended_roundtrip dbC3 (by unfold RestorableTable TableWF IdxInv; decide)

theorem alookup_append {α : Type} (a b : List (String × α)) (k : String) :
    alookup (a ++ b) k =
      match alookup a k with
      | some v => some v
      | none => alookup b k := by
  induction a with
  | nil => rfl
  | cons p rest ih =>
    by_cases h : p.1 = k <;> simp [alookup, h, ih]

theorem dictSet_append_of_not_mem {α : Type} (d : List (String × α)) (k : String)
    (v : α) (h : k ∉ d.map Prod.fst) : dictSet d k v = d ++ [(k, v)] := by
  induction d with
  | nil => rfl
  | cons p rest ih =>
    have h1 : ¬ p.1 = k := fun hh => h (by simp [hh])
    have h2 : k ∉ rest.map Prod.fst := fun hh => h (by simp [hh])
    simp only [dictSet]
    rw [if_neg h1, ih h2]
    rfl

/-- Rebuilding a duplicate-key-free dict by `d[k] = v` assignments reproduces
it. -/
theorem foldl_dictSet_id :
    ∀ (d acc : List (String × Value)),
    (d.map Prod.fst).Nodup →
    (∀ k ∈ d.map Prod.fst, k ∉ acc.map Prod.fst) →
    d.foldl (fun a p => dictSet a p.1 p.2) acc = acc ++ d := by
  intro d
  induction d with
  | nil =>
    intro acc _ _
    simp
  | cons p rest ih =>
    intro acc hnd hdisj
    simp only [List.map_cons, List.nodup_cons] at hnd
    simp only [List.foldl_cons]
    have hnotin : p.1 ∉ acc.map Prod.fst := hdisj p.1 (by simp)
    rw [dictSet_append_of_not_mem acc p.1 p.2 hnotin]
    have hIH := ih (acc ++ [(p.1, p.2)]) hnd.2 (by
      intro k hk
      simp only [List.map_append, List.map_cons, List.map_nil, List.mem_append,
        List.mem_singleton]
      rintro (h | h)
      · exact hdisj k (by simp [hk]) h
      · exact hnd.1 (h ▸ hk))
    rw [hIH]
    simp

/-- The NULL-padding loop of the zero-match LEFT-join branch: append `None`
for exactly the right columns whose name is not already a key. -/
theorem padLeft_fold :
    ∀ (cols : List Column) (base extra : List (String × Value)),
    (cols.map Column.name).Nodup →
    (∀ c ∈ cols, c.name ∉ extra.map Prod.fst) →
    cols.foldl (fun acc col =>
        if (alookup acc col.name).isSome then acc else acc ++ [(col.name, Value.null)])
      (base ++ extra) =
      base ++ extra ++ (cols.filter
        (fun col => !(alookup base col.name).isSome)).map
        (fun col => (col.name, Value.null)) := by
  intro cols
  induction cols with
  | nil =>
    intro base extra _ _
    simp
  | cons col rest ih =>
    intro base extra hnd hdisj
    simp only [List.map_cons, List.nodup_cons] at hnd
    simp only [List.foldl_cons, List.filter_cons]
    have hex : col.name ∉ extra.map Prod.fst := hdisj col (List.mem_cons_self _ _)
    have hae : alookup (base ++ extra) col.name = alookup base col.name := by
      rw [alookup_append]
      rcases hb : alookup base col.name with _ | v
      · exact alookup_none_of_not_mem_keys hex
      · rfl
    by_cases hs : (alookup (base ++ extra) col.name).isSome = true
    · rw [if_pos hs]
      have hbs : (alookup base col.name).isSome = true := by
        rw [← hae]
        exact hs
      rw [if_neg (by rw [hbs]; simp)]
      exact ih base extra hnd.2 (fun c hc => hdisj c (List.mem_cons_of_mem _ hc))
    · rw [if_neg hs]
      have hbs : (alookup base col.name).isSome = false := by
        rw [← hae]
        exact Bool.not_eq_true _ ▸ hs
      rw [if_pos (by rw [hbs]; rfl)]
      have hIH := ih base (extra ++ [(col.name, Value.null)]) hnd.2 (by
        intro c hc
        simp only [List.map_append, List.map_cons, List.map_nil, List.mem_append,
          List.mem_singleton]
        rintro (h | h)
        · exact hdisj c (List.mem_cons_of_mem _ hc) h
        · exact hnd.1 (h ▸ List.mem_map.mpr ⟨c, hc, rfl⟩))
      rw [← List.append_assoc] at hIH
      rw [hIH]
      simp

theorem padLeftRow_eq (lr : SRow) (rt : Table)
    (hnd : (lr.vals.map Prod.fst).Nodup)
    (hrc : (rt.columns.map Column.name).Nodup) :
    padLeftRow lr rt = lr.vals ++ (rt.columns.filter
        (fun c => !(alookup lr.vals c.name).isSome)).map
      (fun c => (c.name, Value.null)) := by
  unfold padLeftRow
  have hc : lr.vals.foldl (fun acc p => dictSet acc p.1 p.2) [] = lr.vals := by
    have := foldl_dictSet_id lr.vals [] hnd (by simp)
    simpa using this
  rw [hc]
  have := padLeft_fold rt.columns lr.vals [] hrc (by simp)
  simpa using this

theorem flatMap_congr {α β : Type} {l : List α} {f g : α → List β}
    (h : ∀ a ∈ l, f a = g a) : l.flatMap f = l.flatMap g := by
  induction l with
  | nil => rfl
  | cons a rest ih =>
    simp only [List.flatMap_cons]
    rw [h a (List.mem_cons_self _ _), ih fun x hx => h x (List.mem_cons_of_mem _ hx)]

theorem flatMap_length_le {α β : Type} (f g : α → List β) (l : List α)
    (h : ∀ a ∈ l, (f a).length ≤ (g a).length) :
    (l.flatMap f).length ≤ (l.flatMap g).length := by
  induction l with
  | nil => exact Nat.le_refl _
  | cons a rest ih =>
    simp only [List.flatMap_cons, List.length_append]
    exact Nat.add_le_add (h a (List.mem_cons_self _ _))
      (ih fun x hx => h x (List.mem_cons_of_mem _ hx))

/-- C3 (amended): a LEFT join emits the inner-join rows and, for every left
row with zero matches, exactly one padded row — the left row's columns under
their plain (unqualified) names followed by NULL for exactly the right-table
columns whose name does not collide with a left-row key; a colliding right
column contributes no NULL entry.  Left-table row order is preserved and the
LEFT cardinality is at least the INNER cardinality. -/
theorem c3_amended_left_join (db : Database) (ltn rtn lc rc : String)
    (lt rt : Table)
    (hlt : db.get_table ltn = some lt) (hrt : db.get_table rtn = some rt)
    (hrows : ∀ r ∈ lt.rows, (r.vals.map Prod.fst).Nodup)
    (hrcols : (rt.columns.map Column.name).Nodup) :
    db.join ltn rtn lc rc "INNER" =
      lt.rows.flatMap (innerMatches ltn rtn lc rc rt.rows) ∧
    db.join ltn rtn lc rc "LEFT" =
      lt.rows.flatMap (fun lr =>
        if (innerMatches ltn rtn lc rc rt.rows lr).isEmpty then
          [lr.vals ++ (rt.columns.filter
              (fun c => !(alookup lr.vals c.name).isSome)).map
            (fun c => (c.name, Value.null))]
        else innerMatches ltn rtn lc rc rt.rows lr) ∧
    (db.join ltn rtn lc rc "INNER").length ≤ (db.join ltn rtn lc rc "LEFT").length := by
  have hInner : db.join ltn rtn lc rc "INNER" =
      lt.rows.flatMap (innerMatches ltn rtn lc rc rt.rows) := by
    simp only [Database.join, Database.get_table] at hlt hrt ⊢
    rw [hlt, hrt]
    rfl
  have hLeftRaw : db.join ltn rtn lc rc "LEFT" =
      lt.rows.flatMap (fun lr =>
        if (innerMatches ltn rtn lc rc rt.rows lr).isEmpty then [padLeftRow lr rt]
        else innerMatches ltn rtn lc rc rt.rows lr) := by
    simp only [Database.join, Database.get_table] at hlt hrt ⊢
    rw [hlt, hrt]
    rfl
  have hLeft : db.join ltn rtn lc rc "LEFT" =
      lt.rows.flatMap (fun lr =>
        if (innerMatches ltn rtn lc rc rt.rows lr).isEmpty then
          [lr.vals ++ (rt.columns.filter
              (fun c => !(alookup lr.vals c.name).isSome)).map
            (fun c => (c.name, Value.null))]
        else innerMatches ltn rtn lc rc rt.rows lr) := by
    rw [hLeftRaw]
    refine flatMap_congr ?_
    intro lr hlr
    by_cases he : (innerMatches ltn rtn lc rc rt.rows lr).isEmpty = true
    · rw [if_pos he, if_pos he, padLeftRow_eq lr rt (hrows lr hlr) hrcols]
    · rw [if_neg he, if_neg he]
  refine ⟨hInner, hLeft, ?_⟩
  rw [hInner, hLeft]
  refine flatMap_length_le _ _ _ ?_
  intro lr _
  by_cases he : (innerMatches ltn rtn lc rc rt.rows lr).isEmpty = true
  · rw [if_pos he]
    have : innerMatches ltn rtn lc rc rt.rows lr = [] := List.isEmpty_iff.mp he
    rw [this]
    simp
  · rw [if_neg he]

def tableC3a : Table :=
  ((Table.new "a" [⟨"id", "INT", none, true, false, true⟩]).insert
    [("id", .int 1)]).1.insert [("id", .int 2)] |>.1

def tableC3b : Table :=
  (Table.new "b"
    [⟨"id", "INT", none, true, false, true⟩,
     ⟨"a_id", "INT", none, false, false, true⟩]).insert
    [("id", .int 10), ("a_id", .int 1)] |>.1

theorem c3_amended_left_join_witness :
    (dbC3.join "a" "b" "id" "a_id" "INNER" =
      tableC3a.rows.flatMap (innerMatches "a" "b" "id" "a_id" tableC3b.rows)) ∧
    (dbC3.join "a" "b" "id" "a_id" "LEFT" =
      tableC3a.rows.flatMap (fun lr =>
        if (innerMatches "a" "b" "id" "a_id" tableC3b.rows lr).isEmpty then
          [lr.vals ++ (tableC3b.columns.filter
              (fun c => !(alookup lr.vals c.name).isSome)).map
            (fun c => (c.name, Value.null))]
        else innerMatches "a" "b" "id" "a_id" tableC3b.rows lr)) ∧
    (dbC3.join "a" "b" "id" "a_id" "INNER").length ≤
      (dbC3.join "a" "b" "id" "a_id" "LEFT").length :=
  c3_amended_left_join dbC3 "a" "b" "id" "a_id" tableC3a tableC3b
    (by decide) (by decide) (by decide) (by decide)
